import Mathlib

/-!
Verification development for the deno-bus D-Bus marshalling library.

The definitions below are a shallow embedding of the TypeScript source:
  * src/dbus_types.ts     (type tables, validation)
  * src/sig_parser.ts     (signature parser)
  * src/message_writer.ts (MessageWriter)
  * src/message_reader.ts (MessageReader)

Conventions of the embedding:
  * JS strings are modelled by their UTF-8 byte encoding (List Nat); the
    helpers encodeUtf8 and decodeUtf8 are therefore identities.
  * JS numbers holding integers are modelled as Int; JS bigints as Int.
  * JS numbers holding IEEE-754 doubles are modelled by their 64-bit bit
    pattern (a Nat below 2 to the 64), since DataView setFloat64 and
    getFloat64 transport exactly those bits.
  * Thrown exceptions are modelled by the Except monad with a structured
    error type whose constructors carry the data interpolated into the
    source message strings.
-/

namespace DenoBus

/-- Endianness, from src/util/encoding.ts. -/
inductive Endianness where
  | LE
  | BE
deriving DecidableEq, Repr

/-- Structured model of the exceptions thrown across the library.  Each
constructor documents the exact source message template it stands for. -/
inductive Err where
  /-- RangeError: unexpected trailing characters TAIL  (sig_parser.ts parseSig). -/
  | unexpectedTrailing (tail : List Char)
  /-- RangeError: expected 2 signatures in dictionary, got N  (sig_parser.ts). -/
  | dictArity (got : Nat)
  /-- RangeError: unknown type, did you mean a-brace?  (sig_parser.ts). -/
  | braceWithoutA
  /-- RangeError: invalid DBus signature: C  (sig_parser.ts); none models the
  empty string returned by charAt past the end of input. -/
  | invalidSignature (c : Option Char)
  /-- ValidationError (dbus_types.ts): signature SIG expected EXPECTED, got
  the actual typeof. -/
  | validation (sig : Char) (expected : String)
  /-- RangeError (dbus_types.ts validateFixed): SIG value must be between MIN
  and MAX. -/
  | rangeViolation (sig : Char) (lo hi : Int)
  /-- Error (message_writer.ts writeLater): multiple calls to writeLater
  callback for signature SIG at position POS. -/
  | multipleWriteLater (sig : Char) (pos : Nat)
  /-- Error with no structured payload: the todo placeholders and the generic
  assertion failures of message_writer.ts and message_reader.ts. -/
  | todoError
  /-- Deno.errors.InvalidData (message_reader.ts readFixed): expected 0 or 1
  for boolean, but got RAW. -/
  | invalidData (raw : Nat)
  /-- ProtocolError class from src/errors.ts. -/
  | protocolError (msg : String)
  /-- PartialReadError from src/util/io.ts: unexpected end of file. -/
  | eofError
  /-- Modelling artifact: the fuel of the reader ran out; the source loop
  would simply keep iterating. -/
  | fuelExhausted
deriving DecidableEq, Repr

/-- Parsed type descriptor DBusType2 from src/dbus_types.ts.  The source is a
tagged union: base covers the one-field forms (fixed, string-like and v). -/
inductive DBusType2 where
  | base (type : Char)
  | array (elemType : DBusType2)
  | struct (fieldTypes : List DBusType2)
  | dict (keyType valueType : DBusType2)
deriving Repr

/-- fixedTypeSizes from src/dbus_types.ts. -/
def fixedTypeSizes (c : Char) : Nat :=
  if c = 'y' then 1
  else if c = 'b' then 4
  else if c = 'n' then 2
  else if c = 'q' then 2
  else if c = 'i' then 4
  else if c = 'u' then 4
  else if c = 'x' then 8
  else if c = 't' then 8
  else if c = 'd' then 8
  else if c = 'h' then 4
  else 0

/-- isFixedTypeSig from src/dbus_types.ts (key membership in fixedTypeSizes). -/
def isFixedTypeSig (c : Char) : Bool :=
  c = 'y' || c = 'b' || c = 'n' || c = 'q' || c = 'i' || c = 'u' ||
  c = 'x' || c = 't' || c = 'd' || c = 'h'

/-- isStringTypeSig from src/dbus_types.ts. -/
def isStringTypeSig (c : Char) : Bool :=
  c = 's' || c = 'o' || c = 'g'

/-- integerTypeRanges from src/dbus_types.ts, reproduced exactly as written
(including the ranges given there for n and i). -/
def integerTypeRanges (c : Char) : Option (Int × Int) :=
  if c = 'y' then some (0, 2 ^ 8 - 1)
  else if c = 'n' then some (-(2 ^ 7), 2 ^ 7 - 1)
  else if c = 'q' then some (0, 2 ^ 16 - 1)
  else if c = 'i' then some (-(2 ^ 15), 2 ^ 15 - 1)
  else if c = 'u' then some (0, 2 ^ 32 - 1)
  else if c = 'x' then some (-(2 ^ 63), 2 ^ 63 - 1)
  else if c = 't' then some (0, 2 ^ 64 - 1)
  else none

/-- Test whether the next character of the remaining input is c, modelling
this.peek() = c over the position cursor of SigParser. -/
def headIs (cs : List Char) (c : Char) : Bool :=
  cs.head? = some c

mutual

/-- SigParser parseNextSig from src/sig_parser.ts.  The remaining input after
a successful parse is returned together with a proof that at least one
character was consumed, which the termination argument of parseSigsUntil
needs.  A none error character models charAt returning the empty string past
the end of the input. -/
def parseNextSig : (cs : List Char) →
    Except Err (DBusType2 × { rest : List Char // rest.length < cs.length })
  | [] => .error (.invalidSignature none)
  | c :: rest =>
    if isFixedTypeSig c || isStringTypeSig c || c = 'v' then
      .ok (.base c, ⟨rest, by simp⟩)
    else if c = 'a' && headIs rest '{' then
      match parseSigsUntil '}' rest.tail with
      | .error e => .error e
      | .ok (types, ⟨rest2, h2⟩) =>
        match types with
        | [keyType, valueType] =>
          .ok (.dict keyType valueType,
            ⟨rest2, by
              have := List.length_tail rest
              simp only [List.length_cons]
              omega⟩)
        | _ => .error (.dictArity types.length)
    else if c = 'a' then
      match parseNextSig rest with
      | .error e => .error e
      | .ok (elemType, ⟨rest2, h2⟩) =>
        .ok (.array elemType, ⟨rest2, by simp only [List.length_cons]; omega⟩)
    else if c = '(' then
      match parseSigsUntil ')' rest with
      | .error e => .error e
      | .ok (fieldTypes, ⟨rest2, h2⟩) =>
        .ok (.struct fieldTypes, ⟨rest2, by simp only [List.length_cons]; omega⟩)
    else if c = '{' then
      .error .braceWithoutA
    else
      .error (.invalidSignature (some c))
termination_by cs => (cs.length, 0)
decreasing_by
  all_goals apply Prod.Lex.left
  all_goals simp only [List.length_cons, List.length_tail]
  all_goals omega

/-- SigParser parseSigsUntil from src/sig_parser.ts, for a concrete end
delimiter character.  The loop body on empty input is parseNextSig of the
empty input, inlined here to its (error) value; the final pos increment of
the source consumes the delimiter, so the returned rest is the input after
it. -/
def parseSigsUntil (endc : Char) (cs : List Char) :
    Except Err (List DBusType2 × { rest : List Char // rest.length < cs.length }) :=
  match cs with
  | [] => .error (.invalidSignature none)
  | c :: tail =>
    if c = endc then
      .ok ([], ⟨tail, by simp⟩)
    else
      match parseNextSig (c :: tail) with
      | .error e => .error e
      | .ok (t, ⟨rest, hr⟩) =>
        match parseSigsUntil endc rest with
        | .error e => .error e
        | .ok (ts, ⟨rest2, hr2⟩) => .ok (t :: ts, ⟨rest2, by omega⟩)
termination_by (cs.length, 1)
decreasing_by
  · apply Prod.Lex.right
    omega
  · apply Prod.Lex.left
    simp only [List.length_cons] at hr ⊢
    omega

end

/-- SigParser parseSig / the exported parseSig function of src/sig_parser.ts:
parse one signature and require that the whole input was consumed. -/
def parseSig (cs : List Char) : Except Err DBusType2 :=
  match parseNextSig cs with
  | .error e => .error e
  | .ok (t, ⟨rest, _⟩) =>
    if rest = [] then .ok t else .error (.unexpectedTrailing rest)

/-- SigParser parseSigs from src/sig_parser.ts: parseSigsUntil with the empty
string as delimiter, i.e. loop until the end of the input.  The trailing pos
increment of the source past the end of the string has no observable
effect. -/
def parseSigs : (cs : List Char) → Except Err (List DBusType2)
  | [] => .ok []
  | c :: rest =>
    match parseNextSig (c :: rest) with
    | .error e => .error e
    | .ok (t, ⟨rest2, _⟩) =>
      match parseSigs rest2 with
      | .error e => .error e
      | .ok ts => .ok (t :: ts)
termination_by cs => cs.length

/-! ## The value model

JS runtime values fed to the writer and produced by the reader. -/

/-- Model of the JS runtime values handled by the marshaller.  int models a
JS number holding an integer, big a JS bigint, dbl a JS number used as an
IEEE-754 double (represented by its 64-bit pattern), str a JS string
(represented by its UTF-8 bytes), arr a JS Array (used for both array and
struct values), dict a JS Map (an insertion-ordered key-value sequence), and
variant a plain object with sig and value properties. -/
inductive DValue where
  | int (n : Int)
  | big (n : Int)
  | bool (b : Bool)
  | dbl (bits : Nat)
  | str (bytes : List Nat)
  | arr (elems : List DValue)
  | dict (entries : List (DValue × DValue))
  | variant (sig : List Char) (value : DValue)
deriving Repr

mutual

/-- Structural equality test on values, modelling the JS strict-equality
comparison used by Map keys for primitive values. -/
def dvalBeq : DValue → DValue → Bool
  | .int n, .int n' => n = n'
  | .big n, .big n' => n = n'
  | .bool b, .bool b' => b = b'
  | .dbl x, .dbl x' => x = x'
  | .str s, .str s' => s = s'
  | .arr l, .arr l' => dvalBeqList l l'
  | .dict m, .dict m' => dvalBeqPairs m m'
  | .variant s v, .variant s' v' => s = s' && dvalBeq v v'
  | _, _ => false

/-- Elementwise dvalBeq on lists. -/
def dvalBeqList : List DValue → List DValue → Bool
  | [], [] => true
  | v :: l, v' :: l' => dvalBeq v v' && dvalBeqList l l'
  | _, _ => false

/-- Elementwise dvalBeq on key-value pair lists. -/
def dvalBeqPairs : List (DValue × DValue) → List (DValue × DValue) → Bool
  | [], [] => true
  | (k, v) :: l, (k', v') :: l' => dvalBeq k k' && dvalBeq v v' && dvalBeqPairs l l'
  | _, _ => false

end

mutual

theorem dvalBeq_iff : ∀ a b : DValue, dvalBeq a b = true ↔ a = b
  | .int n, b => by cases b <;> simp [dvalBeq]
  | .big n, b => by cases b <;> simp [dvalBeq]
  | .bool x, b => by cases b <;> simp [dvalBeq]
  | .dbl x, b => by cases b <;> simp [dvalBeq]
  | .str s, b => by cases b <;> simp [dvalBeq]
  | .arr l, b => by
    cases b <;> simp only [dvalBeq, Bool.false_eq_true, false_iff, reduceCtorEq,
      not_false_eq_true, DValue.arr.injEq]
    exact dvalBeqList_iff l _
  | .dict m, b => by
    cases b <;> simp only [dvalBeq, Bool.false_eq_true, false_iff, reduceCtorEq,
      not_false_eq_true, DValue.dict.injEq]
    exact dvalBeqPairs_iff m _
  | .variant s v, b => by
    cases b <;> simp only [dvalBeq, Bool.false_eq_true, false_iff, reduceCtorEq,
      not_false_eq_true, DValue.variant.injEq, Bool.and_eq_true, decide_eq_true_eq]
    rw [dvalBeq_iff v _]

theorem dvalBeqList_iff : ∀ a b : List DValue, dvalBeqList a b = true ↔ a = b
  | [], b => by cases b <;> simp [dvalBeqList]
  | v :: l, b => by
    cases b with
    | nil => simp [dvalBeqList]
    | cons v' l' =>
      simp only [dvalBeqList, Bool.and_eq_true, List.cons.injEq]
      rw [dvalBeq_iff v v', dvalBeqList_iff l l']

theorem dvalBeqPairs_iff : ∀ a b : List (DValue × DValue), dvalBeqPairs a b = true ↔ a = b
  | [], b => by cases b <;> simp [dvalBeqPairs]
  | (k, v) :: l, b => by
    cases b with
    | nil => simp [dvalBeqPairs]
    | cons kv' l' =>
      obtain ⟨k', v'⟩ := kv'
      simp only [dvalBeqPairs, Bool.and_eq_true, List.cons.injEq, Prod.mk.injEq]
      rw [dvalBeq_iff k k', dvalBeq_iff v v', dvalBeqPairs_iff l l']

end

instance : DecidableEq DValue := fun a b => decidable_of_iff _ (dvalBeq_iff a b)

/-! ## Wire byte encoding helpers

DataView setUintN / setIntN store the two's-complement bit pattern of the
declared width at the requested endianness; getUintN / getIntN read it
back.  These helpers model that bit-level behaviour over Nat byte lists. -/

/-- Little-endian byte list, of the given width, of a value already reduced
below 2 to the 8 times width. -/
def natToBytesLE : (width : Nat) → (val : Nat) → List Nat
  | 0, _ => []
  | w + 1, val => val % 256 :: natToBytesLE w (val / 256)

/-- Byte list of a value in the given endianness. -/
def toBytes (e : Endianness) (width val : Nat) : List Nat :=
  match e with
  | .LE => natToBytesLE width val
  | .BE => (natToBytesLE width val).reverse

/-- Value of a little-endian byte list. -/
def natFromBytesLE : List Nat → Nat
  | [] => 0
  | b :: rest => b + 256 * natFromBytesLE rest

/-- Value of a byte list in the given endianness. -/
def wireNat (e : Endianness) (bytes : List Nat) : Nat :=
  match e with
  | .LE => natFromBytesLE bytes
  | .BE => natFromBytesLE bytes.reverse

/-- Two's-complement reduction of an integer to an unsigned value of the
given byte width, as performed by the DataView setters. -/
def toUnsigned (width : Nat) (n : Int) : Nat :=
  (n % (2 ^ (8 * width) : Nat)).toNat

/-- Signed reinterpretation of an unsigned value of the given byte width, as
performed by the DataView signed getters. -/
def asSigned (width : Nat) (val : Nat) : Int :=
  if val < 2 ^ (8 * width - 1) then (val : Int) else (val : Int) - 2 ^ (8 * width)

/-! ## The writer (src/message_writer.ts MessageWriter) -/

/-- Ghost trace of layout-relevant actions of the writer, recorded only to
state alignment invariants; the source has no counterpart and no operation
reads it back. -/
inductive WEvent where
  | fixedAt (pos size : Nat)
  | structStart (pos : Nat)
  | dictEntryStart (pos : Nat)
  | paddingAt (pos count alignment : Nat)
deriving DecidableEq, Repr

/-- Writer state: the append-only buffer, the logical position counter,
the pending writeLater positions, and the ghost event trace. -/
structure WState where
  buf : List Nat
  pos : Nat
  later : List Nat
  events : List WEvent
deriving DecidableEq, Repr

/-- The fresh writer state: empty Buffer, position 0. -/
def initWState : WState := ⟨[], 0, [], []⟩

/-- MessageWriter.writeRawBytes: append bytes and advance the position. -/
def writeRawBytes (bytes : List Nat) (st : WState) : WState :=
  { st with buf := st.buf ++ bytes, pos := st.pos + bytes.length }

/-- MessageWriter.writePadding: emit zero bytes up to the alignment. -/
def writePadding (alignment : Nat) (st : WState) : WState :=
  if st.pos % alignment = 0 then st
  else
    let padding := alignment - st.pos % alignment
    let st' := writeRawBytes (List.replicate padding 0) st
    { st' with events := st'.events ++ [.paddingAt st.pos padding alignment] }

/-- MessageWriter.reserveAligned: pad to the size, then reserve that many
zero bytes, returning their starting position. -/
def reserveAligned (size : Nat) (st : WState) : WState × Nat :=
  let st := writePadding size st
  let pos := st.pos
  (writeRawBytes (List.replicate size 0) st, pos)

/-- validateFixed from src/dbus_types.ts, with the typeof checks of the
source read off the DValue constructors. -/
def validateFixed (sig : Char) (value : DValue) : Except Err Unit :=
  if sig = 'y' || sig = 'n' || sig = 'q' || sig = 'i' || sig = 'u' then
    match value with
    | .int n =>
      match integerTypeRanges sig with
      | some (lo, hi) =>
        if n < lo || n > hi then .error (.rangeViolation sig lo hi) else .ok ()
      | none => .ok ()
    | _ => .error (.validation sig "number")
  else if sig = 'x' || sig = 't' then
    match value with
    | .big n =>
      match integerTypeRanges sig with
      | some (lo, hi) =>
        if n < lo || n > hi then .error (.rangeViolation sig lo hi) else .ok ()
      | none => .ok ()
    | _ => .error (.validation sig "bigint")
  else if sig = 'b' then
    match value with
    | .bool _ => .ok ()
    | _ => .error (.validation sig "boolean")
  else if sig = 'd' then
    match value with
    | .dbl _ => .ok ()
    | _ => .error (.validation sig "number")
  else
    .ok ()

/-- The bytes stored by the DataView switch of MessageWriter.writeFixedAt
for an already-validated value; the h case raises the todo error of the
source. -/
def fixedWireBytes (e : Endianness) (sig : Char) (v : DValue) : Except Err (List Nat) :=
  match sig, v with
  | 'y', .int n => .ok (toBytes e 1 (toUnsigned 1 n))
  | 'b', .bool b => .ok (toBytes e 4 (if b then 1 else 0))
  | 'n', .int n => .ok (toBytes e 2 (toUnsigned 2 n))
  | 'q', .int n => .ok (toBytes e 2 (toUnsigned 2 n))
  | 'i', .int n => .ok (toBytes e 4 (toUnsigned 4 n))
  | 'u', .int n => .ok (toBytes e 4 (toUnsigned 4 n))
  | 'x', .big n => .ok (toBytes e 8 (toUnsigned 8 n))
  | 't', .big n => .ok (toBytes e 8 (toUnsigned 8 n))
  | 'd', .dbl bits => .ok (toBytes e 8 bits)
  | _, _ => .error .todoError

/-- Overwrite the already-reserved bytes of the buffer starting at pos, as
the DataView of writeFixedAt does. -/
def setBytesAt (buf : List Nat) (pos : Nat) (bytes : List Nat) : List Nat :=
  buf.take pos ++ bytes ++ buf.drop (pos + bytes.length)

/-- MessageWriter.writeFixedAt: validate, then store the wire bytes at the
given (already reserved) position; the position counter is not advanced. -/
def writeFixedAt (e : Endianness) (pos : Nat) (sig : Char) (v : DValue)
    (st : WState) : Except Err WState := do
  let _ ← validateFixed sig v
  let bytes ← fixedWireBytes e sig v
  .ok { st with
        buf := setBytesAt st.buf pos bytes,
        events := st.events ++ [.fixedAt pos (fixedTypeSizes sig)] }

/-- MessageWriter.writeFixed: reserve an aligned slot, then fill it. -/
def writeFixed (e : Endianness) (sig : Char) (v : DValue) (st : WState) :
    Except Err WState :=
  let (st1, pos) := reserveAligned (fixedTypeSizes sig) st
  writeFixedAt e pos sig v st1

/-- MessageWriter.writeLater: reserve an aligned slot and record it in the
pending set.  The returned position identifies the closure the source
returns. -/
def writeLater (sig : Char) (st : WState) : WState × Nat :=
  let (st1, pos) := reserveAligned (fixedTypeSizes sig) st
  ({ st1 with later := pos :: st1.later }, pos)

/-- Invoking the closure returned by MessageWriter.writeLater for the slot
at pos: if the position is no longer pending the call fails with the
multiple-calls error, otherwise the slot is removed from the pending set and
filled via writeFixedAt. -/
def writeLaterCall (e : Endianness) (sig : Char) (pos : Nat) (v : DValue)
    (st : WState) : Except Err WState :=
  if pos ∈ st.later then
    writeFixedAt e pos sig v { st with later := st.later.erase pos }
  else
    .error (.multipleWriteLater sig pos)

/-- MessageWriter.writeString: length prefix (u for s and o, y for g),
the UTF-8 bytes, then one NUL byte not counted in the length. -/
def writeString (e : Endianness) (sig : Char) (bytes : List Nat) (st : WState) :
    Except Err WState := do
  let st1 ←
    if sig = 's' || sig = 'o' then
      writeFixed e 'u' (.int bytes.length) st
    else
      writeFixed e 'y' (.int bytes.length) st
  let st2 := writeRawBytes bytes st1
  .ok (writeRawBytes [0] st2)

/-- The inlined element-alignment padding of the array branch of
MessageWriter.write2: fixed elements pad to their size, s, o, arrays and
dicts to 4, structs to 8, and g and v not at all. -/
def writeArrayPadding (elemType : DBusType2) (st : WState) : WState :=
  match elemType with
  | .base c =>
    if isFixedTypeSig c then writePadding (fixedTypeSizes c) st
    else if c = 's' || c = 'o' then writePadding (fixedTypeSizes 'u') st
    else st
  | .array _ => writePadding (fixedTypeSizes 'u') st
  | .dict _ _ => writePadding (fixedTypeSizes 'u') st
  | .struct _ => writePadding 8 st

/-- The UTF-8 bytes of a signature string; signature characters are ASCII,
so the encoding is the code point of each character. -/
def sigUtf8 (sig : List Char) : List Nat :=
  sig.map Char.toNat

mutual

/-- MessageWriter.write2: dispatch on the type descriptor.  The todo error
stands for the untyped assertion failures of the source (a non-Array value
for an array or struct, a non-Map value for a dict, a value without a string
sig property for a variant, and the unreachable assertExhaustive). -/
def write2 (e : Endianness) (t : DBusType2) (v : DValue) (st : WState) :
    Except Err WState :=
  match t with
  | .base c =>
    if isFixedTypeSig c then
      writeFixed e c v st
    else if isStringTypeSig c then
      match v with
      | .str bytes => writeString e c bytes st
      | _ => .error .todoError
    else if c = 'v' then
      match v with
      | .variant sig inner => do
        let st1 ← writeString e 'g' (sigUtf8 sig) st
        match parseSig sig with
        | .error err => .error err
        | .ok innerT => write2 e innerT inner st1
      | _ => .error .todoError
    else
      .error .todoError
  | .array elemType =>
    match v with
    | .arr elems =>
      let (st1, lpos) := writeLater 'u' st
      let st2 := writeArrayPadding elemType st1
      let before := st2.pos
      match writeList e elemType elems st2 with
      | .error err => .error err
      | .ok st3 => writeLaterCall e 'u' lpos (.int ((st3.pos - before : Nat) : Int)) st3
    | _ => .error .todoError
  | .struct fieldTypes =>
    match v with
    | .arr fields =>
      let st1 := writePadding 8 st
      let st2 := { st1 with events := st1.events ++ [.structStart st1.pos] }
      writeFields e fieldTypes fields st2
    | _ => .error .todoError
  | .dict keyType valueType =>
    match v with
    | .dict entries =>
      let (st1, lpos) := writeLater 'u' st
      let st2 := writePadding 8 st1
      let before := st2.pos
      match writeEntries e keyType valueType entries st2 with
      | .error err => .error err
      | .ok st3 => writeLaterCall e 'u' lpos (.int ((st3.pos - before : Nat) : Int)) st3
    | _ => .error .todoError
termination_by structural v

/-- The element loop of the array branch of write2. -/
def writeList (e : Endianness) (t : DBusType2) (vs : List DValue) (st : WState) :
    Except Err WState :=
  match vs with
  | [] => .ok st
  | v :: rest =>
    match write2 e t v st with
    | .error err => .error err
    | .ok st1 => writeList e t rest st1
termination_by structural vs

/-- The field loop of the struct branch of write2: the source indexes fields
by position of the declared field types; a missing field is the undefined
value, which fails validation. -/
def writeFields (e : Endianness) (ts : List DBusType2) (vs : List DValue)
    (st : WState) : Except Err WState :=
  match ts, vs with
  | [], _ => .ok st
  | _ :: _, [] => .error .todoError
  | t :: ts', v :: vs' =>
    match write2 e t v st with
    | .error err => .error err
    | .ok st1 => writeFields e ts' vs' st1
termination_by structural vs

/-- The entry loop of the dict branch of write2: each entry pads to 8, then
writes the key and the value. -/
def writeEntries (e : Endianness) (kt vt : DBusType2)
    (entries : List (DValue × DValue)) (st : WState) : Except Err WState :=
  match entries with
  | [] => .ok st
  | (k, v) :: rest =>
    let st1 := writePadding 8 st
    let st2 := { st1 with events := st1.events ++ [.dictEntryStart st1.pos] }
    match write2 e kt k st2 with
    | .error err => .error err
    | .ok st3 =>
      match write2 e vt v st3 with
      | .error err => .error err
      | .ok st4 => writeEntries e kt vt rest st4
termination_by structural entries

end

/-! ## The reader (src/message_reader.ts MessageReader)

The reader owns a byte stream and a position counter.  The stream is
modelled by the list of not-yet-consumed bytes.  The while loops of the
array and dict branches are driven by the position, not by the structure of
the input, so the recursive reader takes a fuel argument; fuel exhaustion is
a modelling artifact reported as its own error.

The source calls this.skipPadding(8) in the dict branch without awaiting
it; the model sequences it like every other read, which coincides with the
source whenever the position is already 8-aligned there (the only situation
exercised below, since the skip then returns synchronously). -/

/-- Reader state: the unconsumed bytes of the stream and the position
counter (bytes consumed since the start of the message). -/
structure RState where
  input : List Nat
  pos : Nat
deriving DecidableEq, Repr

/-- MessageReader.readRawBytes via readNBytes: consume exactly n bytes or
fail with the partial-read error. -/
def readRawBytes (n : Nat) (st : RState) : Except Err (List Nat × RState) :=
  if n ≤ st.input.length then
    .ok (st.input.take n, ⟨st.input.drop n, st.pos + n⟩)
  else
    .error .eofError

/-- MessageReader.skipPadding: consume the minimum non-negative number of
bytes needed to reach an aligned position. -/
def skipPadding (alignment : Nat) (st : RState) : Except Err RState :=
  if st.pos % alignment = 0 then .ok st
  else
    match readRawBytes (alignment - st.pos % alignment) st with
    | .error err => .error err
    | .ok (_, st') => .ok st'

/-- MessageReader.readFixed: align, read the size of the code, interpret the
bytes at the chosen endianness.  On b, a wire value other than 0 or 1 raises
Deno.errors.InvalidData; h raises the todo error. -/
def readFixed (e : Endianness) (sig : Char) (st : RState) :
    Except Err (DValue × RState) :=
  match skipPadding (fixedTypeSizes sig) st with
  | .error err => .error err
  | .ok st1 =>
    match readRawBytes (fixedTypeSizes sig) st1 with
    | .error err => .error err
    | .ok (bytes, st2) =>
      if sig = 'y' then .ok (.int (wireNat e bytes), st2)
      else if sig = 'b' then
        let raw := wireNat e bytes
        if raw ≠ 0 ∧ raw ≠ 1 then .error (.invalidData raw)
        else .ok (.bool (raw = 1), st2)
      else if sig = 'n' then .ok (.int (asSigned 2 (wireNat e bytes)), st2)
      else if sig = 'q' then .ok (.int (wireNat e bytes), st2)
      else if sig = 'i' then .ok (.int (asSigned 4 (wireNat e bytes)), st2)
      else if sig = 'u' then .ok (.int (wireNat e bytes), st2)
      else if sig = 'x' then .ok (.big (asSigned 8 (wireNat e bytes)), st2)
      else if sig = 't' then .ok (.big (wireNat e bytes), st2)
      else if sig = 'd' then .ok (.dbl (wireNat e bytes), st2)
      else .error .todoError

/-- A fixed read used as a non-negative length (the u and y length
prefixes); both produce an int value. -/
def readLen (e : Endianness) (sig : Char) (st : RState) :
    Except Err (Nat × RState) :=
  match readFixed e sig st with
  | .error err => .error err
  | .ok (.int n, st') => .ok (n.toNat, st')
  | .ok _ => .error .todoError

/-- MessageReader.readString: length prefix (u for s and o, y for g), that
many content bytes, then one terminator byte that is consumed but never
inspected (the source has a TODO to assert it is zero). -/
def readString (e : Endianness) (sig : Char) (st : RState) :
    Except Err (DValue × RState) :=
  match (if sig = 's' || sig = 'o' then readLen e 'u' st else readLen e 'y' st) with
  | .error err => .error err
  | .ok (length, st1) =>
    match readRawBytes length st1 with
    | .error err => .error err
    | .ok (bytes, st2) =>
      match readRawBytes 1 st2 with
      | .error err => .error err
      | .ok (_, st3) => .ok (.str bytes, st3)

/-- The inlined element-alignment skip of the array branch of
MessageReader.read2, mirroring writeArrayPadding. -/
def skipArrayPadding (elemType : DBusType2) (st : RState) : Except Err RState :=
  match elemType with
  | .base c =>
    if isFixedTypeSig c then skipPadding (fixedTypeSizes c) st
    else if c = 's' || c = 'o' then skipPadding (fixedTypeSizes 'u') st
    else .ok st
  | .array _ => skipPadding (fixedTypeSizes 'u') st
  | .dict _ _ => skipPadding (fixedTypeSizes 'u') st
  | .struct _ => skipPadding 8 st

/-- JS Map.prototype.set on an insertion-ordered pair list: an existing key
keeps its position and takes the new value, a new key is appended. -/
def mapSet (m : List (DValue × DValue)) (k v : DValue) : List (DValue × DValue) :=
  match m with
  | [] => [(k, v)]
  | (k', v') :: rest =>
    if k' = k then (k', v) :: rest else (k', v') :: mapSet rest k v

mutual

/-- MessageReader.read2: dispatch on the type descriptor. -/
def read2 (e : Endianness) (fuel : Nat) (t : DBusType2) (st : RState) :
    Except Err (DValue × RState) :=
  match fuel with
  | 0 => .error .fuelExhausted
  | fuel + 1 =>
    match t with
    | .base c =>
      if isFixedTypeSig c then readFixed e c st
      else if isStringTypeSig c then readString e c st
      else if c = 'v' then
        match readString e 'g' st with
        | .error err => .error err
        | .ok (.str sigBytes, st1) =>
          let sig := sigBytes.map Char.ofNat
          match parseSig sig with
          | .error err => .error err
          | .ok innerT =>
            match read2 e fuel innerT st1 with
            | .error err => .error err
            | .ok (v, st2) => .ok (.variant sig v, st2)
        | .ok _ => .error .todoError
      else .error .todoError
    | .array elemType =>
      match readLen e 'u' st with
      | .error err => .error err
      | .ok (length, st1) =>
        match skipArrayPadding elemType st1 with
        | .error err => .error err
        | .ok st2 =>
          match readElems e fuel elemType (st2.pos + length) st2 with
          | .error err => .error err
          | .ok (elems, st3) => .ok (.arr elems, st3)
    | .struct fieldTypes =>
      match skipPadding 8 st with
      | .error err => .error err
      | .ok st1 =>
        match readStructFields e fuel fieldTypes st1 with
        | .error err => .error err
        | .ok (fields, st2) => .ok (.arr fields, st2)
    | .dict keyType valueType =>
      match readLen e 'u' st with
      | .error err => .error err
      | .ok (length, st1) =>
        match skipPadding 8 st1 with
        | .error err => .error err
        | .ok st2 =>
          match readEntries e fuel keyType valueType (st2.pos + length) [] st2 with
          | .error err => .error err
          | .ok (entries, st3) => .ok (.dict entries, st3)

/-- The element loop of the array branch: read elements while the position
is below the end position. -/
def readElems (e : Endianness) (fuel : Nat) (t : DBusType2) (endPos : Nat)
    (st : RState) : Except Err (List DValue × RState) :=
  match fuel with
  | 0 => .error .fuelExhausted
  | fuel + 1 =>
    if st.pos < endPos then
      match read2 e fuel t st with
      | .error err => .error err
      | .ok (v, st1) =>
        match readElems e fuel t endPos st1 with
        | .error err => .error err
        | .ok (vs, st2) => .ok (v :: vs, st2)
    else .ok ([], st)

/-- The field loop of the struct branch: read each declared field in
order. -/
def readStructFields (e : Endianness) (fuel : Nat) (ts : List DBusType2)
    (st : RState) : Except Err (List DValue × RState) :=
  match fuel with
  | 0 => .error .fuelExhausted
  | fuel + 1 =>
    match ts with
    | [] => .ok ([], st)
    | t :: rest =>
      match read2 e fuel t st with
      | .error err => .error err
      | .ok (v, st1) =>
        match readStructFields e fuel rest st1 with
        | .error err => .error err
        | .ok (vs, st2) => .ok (v :: vs, st2)

/-- The entry loop of the dict branch: read key then value while the
position is below the end position, inserting with Map.set (so a duplicate
key silently overwrites the previous value). -/
def readEntries (e : Endianness) (fuel : Nat) (kt vt : DBusType2)
    (endPos : Nat) (acc : List (DValue × DValue)) (st : RState) :
    Except Err (List (DValue × DValue) × RState) :=
  match fuel with
  | 0 => .error .fuelExhausted
  | fuel + 1 =>
    if st.pos < endPos then
      match read2 e fuel kt st with
      | .error err => .error err
      | .ok (k, st1) =>
        match read2 e fuel vt st1 with
        | .error err => .error err
        | .ok (v, st2) => readEntries e fuel kt vt endPos (mapSet acc k v) st2
    else .ok (acc, st)

end

/-! ## Spec-side definitions

Definitions that follow the wording of spec.md rather than the source, used
to state the refinement claims about the signature parser, the alignment
invariants and the error taxonomy. -/

mutual

/-- The canonical signature string of a type descriptor (the inverse image
of the parser). -/
def renderSig : DBusType2 → List Char
  | .base c => [c]
  | .array t => 'a' :: renderSig t
  | .dict k v => 'a' :: '{' :: (renderSig k ++ renderSig v ++ ['}'])
  | .struct fts => '(' :: renderSigs fts ++ [')']

/-- Concatenation of the canonical signatures of a list of descriptors. -/
def renderSigs : List DBusType2 → List Char
  | [] => []
  | t :: ts => renderSig t ++ renderSigs ts

end

mutual

/-- A descriptor uses only the base codes of the signature alphabet (fixed,
string-like or v).  The parser only ever produces such descriptors. -/
def validT : DBusType2 → Bool
  | .base c => isFixedTypeSig c || isStringTypeSig c || c = 'v'
  | .array t => validT t
  | .dict k v => validT k && validT v
  | .struct fts => validTs fts

/-- validT for every descriptor of the list. -/
def validTs : List DBusType2 → Bool
  | [] => true
  | t :: ts => validT t && validTs ts

end

mutual

/-- The complete-type grammar of spec.md section 4.C, as written there:
type := fixed | string | v | array | struct, array := a (dict | type),
dict := brace type type brace, struct := paren type-plus paren — a struct
body is one or more complete types. -/
inductive SpecCompleteType : List Char → Prop where
  | fixed (c : Char) : isFixedTypeSig c = true → SpecCompleteType [c]
  | stringLike (c : Char) : isStringTypeSig c = true → SpecCompleteType [c]
  | variant : SpecCompleteType ['v']
  | array (s : List Char) : SpecCompleteType s → SpecCompleteType ('a' :: s)
  | dict (k v : List Char) : SpecCompleteType k → SpecCompleteType v →
      SpecCompleteType ('a' :: '{' :: (k ++ v ++ ['}']))
  | strct (s ss : List Char) : SpecCompleteType s → SpecCompleteTypes ss →
      SpecCompleteType ('(' :: (s ++ ss) ++ [')'])

/-- Zero or more juxtaposed complete types of the spec grammar. -/
inductive SpecCompleteTypes : List Char → Prop where
  | nil : SpecCompleteTypes []
  | cons (s ss : List Char) : SpecCompleteType s → SpecCompleteTypes ss →
      SpecCompleteTypes (s ++ ss)

end

mutual

/-- The complete-type grammar as the parser actually realises it: identical
to SpecCompleteType except that a struct body may be empty (the parser
accepts an empty struct). -/
inductive GenCompleteType : List Char → Prop where
  | fixed (c : Char) : isFixedTypeSig c = true → GenCompleteType [c]
  | stringLike (c : Char) : isStringTypeSig c = true → GenCompleteType [c]
  | variant : GenCompleteType ['v']
  | array (s : List Char) : GenCompleteType s → GenCompleteType ('a' :: s)
  | dict (k v : List Char) : GenCompleteType k → GenCompleteType v →
      GenCompleteType ('a' :: '{' :: (k ++ v ++ ['}']))
  | strct (ss : List Char) : GenCompleteTypes ss →
      GenCompleteType ('(' :: ss ++ [')'])

/-- Zero or more juxtaposed complete types of the realised grammar. -/
inductive GenCompleteTypes : List Char → Prop where
  | nil : GenCompleteTypes []
  | cons (s ss : List Char) : GenCompleteType s → GenCompleteTypes ss →
      GenCompleteTypes (s ++ ss)

end

/-- The parser with the consumed-length certificate erased, for stating
parser lemmas. -/
def parseNext (cs : List Char) : Except Err (DBusType2 × List Char) :=
  match parseNextSig cs with
  | .error e => .error e
  | .ok (t, rest) => .ok (t, rest.val)


/-- The first character of the canonical signature of a descriptor. -/
def sigHead : DBusType2 → Char
  | .base c => c
  | .array _ => 'a'
  | .dict _ _ => 'a'
  | .struct _ => '('

/-- Spec section 3 invariants, read off the ghost writer trace: a fixed
primitive placed at pos with its size divides the offset, structs and dict
entries start at multiples of 8, and padding runs are of the minimum
non-negative count reaching the alignment (in particular every shorter
count would not reach it). -/
def goodEvent : WEvent → Prop
  | .fixedAt pos size => pos % size = 0
  | .structStart pos => pos % 8 = 0
  | .dictEntryStart pos => pos % 8 = 0
  | .paddingAt pos count alignment =>
      (pos + count) % alignment = 0 ∧ ∀ m < count, (pos + m) % alignment ≠ 0

/-- Whether a model error corresponds to the ProtocolError class of
src/errors.ts (spec section 7 error taxonomy); Deno.errors.InvalidData is a
different class. -/
def isProtocolErrorKind : Err → Bool
  | .protocolError _ => true
  | _ => false

/-- The number of padding bytes writePadding emits at a given position. -/
def padCount (a pos : Nat) : Nat :=
  if pos % a = 0 then 0 else a - pos % a

/-- The writer maintains pos = buf.length: both fields advance together in
writeRawBytes and nothing else grows the buffer. -/
def WInv (st : WState) : Prop := st.pos = st.buf.length

/-- All recorded layout events satisfy the alignment invariants. -/
def GoodEvents (l : List WEvent) : Prop := ∀ ev ∈ l, goodEvent ev

/-- What one successful writer operation guarantees relative to its entry
state: the pos-buf invariant is maintained, the position does not move
backwards, the bytes before the entry position are untouched, pending
back-patch positions before the entry position survive, and event-trace
goodness is preserved. -/
def WStep (st st' : WState) : Prop :=
  WInv st' ∧ st.pos ≤ st'.pos ∧
  st'.buf.take st.pos = st.buf.take st.pos ∧
  (∀ x ∈ st.later, x < st.pos → x ∈ st'.later) ∧
  (GoodEvents st.events → GoodEvents st'.events)

/-! ## Byte encoding lemmas -/

theorem natToBytesLE_length (w : Nat) : ∀ v, (natToBytesLE w v).length = w := by
  induction w with
  | zero => intro v; rfl
  | succ w ih => intro v; simp [natToBytesLE, ih]

theorem toBytes_length (e : Endianness) (w v : Nat) : (toBytes e w v).length = w := by
  cases e <;> simp [toBytes, natToBytesLE_length]

theorem natFromBytesLE_natToBytesLE (w : Nat) :
    ∀ v, v < 2 ^ (8 * w) → natFromBytesLE (natToBytesLE w v) = v := by
  induction w with
  | zero =>
    intro v h
    simp only [Nat.mul_zero, pow_zero, Nat.lt_one_iff] at h
    simp [natToBytesLE, natFromBytesLE, h]
  | succ w ih =>
    intro v h
    have hlt : v / 256 < 2 ^ (8 * w) := by
      rw [Nat.div_lt_iff_lt_mul (by norm_num)]
      calc v < 2 ^ (8 * (w + 1)) := h
        _ = 2 ^ (8 * w) * 256 := by rw [Nat.mul_succ, pow_add]; norm_num
    simp only [natToBytesLE, natFromBytesLE, ih (v / 256) hlt]
    omega

theorem wireNat_toBytes (e : Endianness) (w v : Nat) (h : v < 2 ^ (8 * w)) :
    wireNat e (toBytes e w v) = v := by
  cases e <;>
    simp [wireNat, toBytes, List.reverse_reverse, natFromBytesLE_natToBytesLE w v h]

theorem toBytes_take (e : Endianness) (w v : Nat) (tail : List Nat) :
    (toBytes e w v ++ tail).take w = toBytes e w v :=
  List.take_left' (toBytes_length e w v)

theorem toBytes_drop (e : Endianness) (w v : Nat) (tail : List Nat) :
    (toBytes e w v ++ tail).drop w = tail :=
  List.drop_left' (toBytes_length e w v)

/-! ## Claims -/

/-- C2: the claim states that validation accepts exactly the two's-complement
(or unsigned) range of the declared wire width of each integer code, e.g.
that n (int16, wire width 2 per fixedTypeSizes) accepts [-32768, 32767] and
i (int32, wire width 4) accepts values up to 2^31 - 1.  The code instead
uses the int8 range for n and the int16 range for i, contradicting its own
typeNames and fixedTypeSizes tables: 1000 is an int16 value yet is rejected
for n, and 100000 is an int32 value yet is rejected for i, each with the
too-narrow bounds in the error. -/
theorem c2_integer_range_bug :
    validateFixed 'n' (.int 1000) = .error (.rangeViolation 'n' (-128) 127) ∧
    fixedTypeSizes 'n' = 2 ∧
    (-(2 ^ 15) : Int) ≤ 1000 ∧ (1000 : Int) ≤ 2 ^ 15 - 1 ∧
    validateFixed 'i' (.int 100000) = .error (.rangeViolation 'i' (-32768) 32767) ∧
    fixedTypeSizes 'i' = 4 ∧
    (-(2 ^ 31) : Int) ≤ 100000 ∧ (100000 : Int) ≤ 2 ^ 31 - 1 := by
  refine ⟨rfl, rfl, by norm_num, by norm_num, rfl, rfl, by norm_num, by norm_num⟩

/-- C7 counterexample: decoding the boolean wire value 2 raises
Deno.errors.InvalidData, which is not the ProtocolError class of the error
taxonomy, contradicting the claim that the failure is of the ProtocolError
kind. -/
theorem c7_counterexample :
    readFixed .LE 'b' ⟨[2, 0, 0, 0], 0⟩ = .error (.invalidData 2) ∧
    isProtocolErrorKind (.invalidData 2) = false := ⟨rfl, rfl⟩

/-- C7 (amended): reading a boolean succeeds exactly when the 32-bit wire
value is 0 or 1 (decoding to false or true), and every other value fails
with an invalid-data error (Deno.errors.InvalidData) carrying the value —
not with the ProtocolError class. -/
theorem c7_bool_read (e : Endianness) (raw : Nat) (rest : List Nat)
    (h : raw < 2 ^ 32) :
    readFixed e 'b' ⟨toBytes e 4 raw ++ rest, 0⟩ =
      if raw = 0 then .ok (.bool false, ⟨rest, 4⟩)
      else if raw = 1 then .ok (.bool true, ⟨rest, 4⟩)
      else .error (.invalidData raw) := by
  have hc : (4 : Nat) ≤ (toBytes e 4 raw).length + rest.length := by
    simp [toBytes_length]
  have hwire : wireNat e (toBytes e 4 raw) = raw :=
    wireNat_toBytes e 4 raw (by simpa using h)
  by_cases h0 : raw = 0
  · subst h0
    simp [readFixed, fixedTypeSizes, skipPadding, readRawBytes, toBytes_take,
      toBytes_drop, hwire, hc]
  by_cases h1 : raw = 1
  · subst h1
    simp [readFixed, fixedTypeSizes, skipPadding, readRawBytes, toBytes_take,
      toBytes_drop, hwire, hc, h0]
  · simp [readFixed, fixedTypeSizes, skipPadding, readRawBytes, toBytes_take,
      toBytes_drop, hwire, hc, h0, h1]

/-- C7 witness: the amended theorem applied to the wire value 2 in little
endian. -/
theorem c7_bool_read_witness :
    readFixed .LE 'b' ⟨toBytes .LE 4 2 ++ [], 0⟩ = .error (.invalidData 2) := by
  rw [c7_bool_read .LE 2 [] (by norm_num)]
  norm_num

/-- C4: the claim states that a duplicate key seen while decoding a dict is
a protocol error.  The code has TODO markers instead: decoding the struct
signature (y a-brace-yy) from bytes containing the entries (1, 10) and
(1, 20) under the same key 1 succeeds and silently keeps only the second
value, rather than failing. -/
theorem c4_duplicate_keys_not_detected :
    read2 .LE 100 (.struct [.base 'y', .dict (.base 'y') (.base 'y')])
        ⟨[0, 0, 0, 0, 4, 0, 0, 0, 1, 10, 1, 20], 0⟩
      = .ok (.arr [.int 0, .dict [(.int 1, .int 20)]], ⟨[], 12⟩) := rfl

/-- C1: the claim states that decode is a left inverse of encode for every
parseable signature and matching value tree.  It fails on the code: the
writer pads every dict entry to an 8-byte boundary but the reader never
skips that padding, so the two-entry dict below (signature (y a-brace-yy),
struct of a byte and a byte-to-byte dict) decodes to a dict holding the
spurious entry (0, 0) read out of the padding bytes, not to the value that
was written. -/
theorem c1_roundtrip_fails :
    write2 .LE (.struct [.base 'y', .dict (.base 'y') (.base 'y')])
        (.arr [.int 0, .dict [(.int 1, .int 10), (.int 2, .int 20)]]) initWState
      = .ok ⟨[0, 0, 0, 0, 10, 0, 0, 0, 1, 10, 0, 0, 0, 0, 0, 0, 2, 20], 18, [],
          [.structStart 0, .fixedAt 0 1, .paddingAt 1 3 4, .dictEntryStart 8,
           .fixedAt 8 1, .fixedAt 9 1, .paddingAt 10 6 8, .dictEntryStart 16,
           .fixedAt 16 1, .fixedAt 17 1, .fixedAt 4 4]⟩ ∧
    read2 .LE 100 (.struct [.base 'y', .dict (.base 'y') (.base 'y')])
        ⟨[0, 0, 0, 0, 10, 0, 0, 0, 1, 10, 0, 0, 0, 0, 0, 0, 2, 20], 0⟩
      = .ok (.arr [.int 0,
              .dict [(.int 1, .int 10), (.int 0, .int 0), (.int 2, .int 20)]],
             ⟨[], 18⟩) ∧
    DValue.arr [.int 0,
        .dict [(.int 1, .int 10), (.int 0, .int 0), (.int 2, .int 20)]]
      ≠ DValue.arr [.int 0, .dict [(.int 1, .int 10), (.int 2, .int 20)]] := by
  refine ⟨rfl, rfl, by decide⟩

/-- Helper for C10: a string-like read with a 4-byte length prefix consumes
prefix, content and exactly one terminator byte of any value. -/
theorem readString_spec4 (e : Endianness) (sig : Char)
    (hsig : sig = 's' ∨ sig = 'o') (content : List Nat) (term : Nat)
    (rest : List Nat) (h32 : content.length < 2 ^ 32) :
    readString e sig ⟨toBytes e 4 content.length ++ (content ++ term :: rest), 0⟩
      = .ok (.str content, ⟨rest, content.length + 5⟩) := by
  have hc : (4 : Nat) ≤ (toBytes e 4 content.length).length
      + (content.length + (rest.length + 1)) := by
    simp [toBytes_length]
  have hwire : wireNat e (toBytes e 4 content.length) = content.length :=
    wireNat_toBytes e 4 content.length (by simpa using h32)
  have hc2 : content.length ≤ content.length + (rest.length + 1) := by omega
  obtain rfl | rfl := hsig <;>
  · simp only [readString, reduceIte, readLen, readFixed, fixedTypeSizes,
      skipPadding, Nat.zero_mod, if_pos rfl, readRawBytes, List.length_append,
      List.length_cons, if_pos hc, toBytes_take, toBytes_drop, hwire,
      Int.toNat_natCast, if_pos hc2, List.take_left, List.drop_left,
      Char.reduceEq]
    simp [List.take_cons, List.drop_succ_cons]
    omega

/-- Helper for C10: the same for the 1-byte length prefix of g. -/
theorem readString_spec1 (e : Endianness) (content : List Nat) (term : Nat)
    (rest : List Nat) (h8 : content.length < 2 ^ 8) :
    readString e 'g' ⟨toBytes e 1 content.length ++ (content ++ term :: rest), 0⟩
      = .ok (.str content, ⟨rest, content.length + 2⟩) := by
  have hc : (1 : Nat) ≤ (toBytes e 1 content.length).length
      + (content.length + (rest.length + 1)) := by
    simp [toBytes_length]
  have hwire : wireNat e (toBytes e 1 content.length) = content.length :=
    wireNat_toBytes e 1 content.length (by simpa using h8)
  have hc2 : content.length ≤ content.length + (rest.length + 1) := by omega
  simp only [readString, reduceIte, readLen, readFixed, fixedTypeSizes,
    skipPadding, Nat.zero_mod, if_pos rfl, readRawBytes, List.length_append,
    List.length_cons, if_pos hc, toBytes_take, toBytes_drop, hwire,
    Int.toNat_natCast, if_pos hc2, List.take_left, List.drop_left,
    Char.reduceEq]
  simp [List.take_cons, List.drop_succ_cons]
  omega

/-- C10: reading a string-like value consumes the length prefix, exactly
length-many content bytes and one terminator byte, and succeeds with the
decoded content for every terminator byte value; a non-zero terminator is
never rejected. -/
theorem c10_readString (e : Endianness) (content : List Nat) (term : Nat)
    (rest : List Nat) (h32 : content.length < 2 ^ 32) :
    readString e 's' ⟨toBytes e 4 content.length ++ (content ++ term :: rest), 0⟩
      = .ok (.str content, ⟨rest, content.length + 5⟩) ∧
    readString e 'o' ⟨toBytes e 4 content.length ++ (content ++ term :: rest), 0⟩
      = .ok (.str content, ⟨rest, content.length + 5⟩) ∧
    (content.length < 2 ^ 8 →
      readString e 'g' ⟨toBytes e 1 content.length ++ (content ++ term :: rest), 0⟩
        = .ok (.str content, ⟨rest, content.length + 2⟩)) :=
  ⟨readString_spec4 e 's' (.inl rfl) content term rest h32,
   readString_spec4 e 'o' (.inr rfl) content term rest h32,
   fun h8 => readString_spec1 e content term rest h8⟩

/-- Closed form of writePadding: append that many zero bytes, advance the
position, record the event exactly when bytes were emitted. -/
theorem writePadding_eq (a : Nat) (st : WState) :
    writePadding a st =
      { buf := st.buf ++ List.replicate (padCount a st.pos) 0,
        pos := st.pos + padCount a st.pos,
        later := st.later,
        events := st.events ++
          if st.pos % a = 0 then []
          else [.paddingAt st.pos (padCount a st.pos) a] } := by
  unfold writePadding writeRawBytes padCount
  split
  · next h => simp [h]
  · next h => simp [h]

/-- Padding counts are below the alignment. -/
theorem padCount_lt (a pos : Nat) (ha : 0 < a) : padCount a pos < a := by
  unfold padCount
  split
  · omega
  · next h => have := Nat.mod_lt pos ha; omega

/-- Padding reaches an aligned position. -/
theorem padCount_aligned (a pos : Nat) (ha : 0 < a) :
    (pos + padCount a pos) % a = 0 := by
  unfold padCount
  split
  · next h => simp [Nat.add_mod, h]
  · next h =>
    have h1 : pos % a < a := Nat.mod_lt pos ha
    have h2 : pos + (a - pos % a) = a * (pos / a) + a := by
      have := Nat.div_add_mod pos a
      omega
    rw [h2, show a * (pos / a) + a = a * (pos / a + 1) by ring]
    exact Nat.mul_mod_right a _

/-- No shorter padding run reaches an aligned position. -/
theorem padCount_minimal (a pos : Nat) :
    ∀ m < padCount a pos, (pos + m) % a ≠ 0 := by
  intro m hm
  unfold padCount at hm
  split at hm
  · omega
  · next h =>
    have h1 : pos % a + m < a := by omega
    have h2 : (pos + m) % a = pos % a + m := by
      conv in pos + m => rw [← Nat.div_add_mod pos a]
      rw [Nat.add_assoc, Nat.mul_add_mod]
      exact Nat.mod_eq_of_lt h1
    omega

theorem GoodEvents_append {l1 l2 : List WEvent} :
    GoodEvents (l1 ++ l2) ↔ GoodEvents l1 ∧ GoodEvents l2 := by
  unfold GoodEvents
  constructor
  · intro h
    exact ⟨fun ev hev => h ev (List.mem_append_left _ hev),
           fun ev hev => h ev (List.mem_append_right _ hev)⟩
  · rintro ⟨h1, h2⟩ ev hev
    rcases List.mem_append.mp hev with hm | hm
    · exact h1 ev hm
    · exact h2 ev hm

theorem WStep_rfl (st : WState) (hinv : WInv st) : WStep st st :=
  ⟨hinv, Nat.le_refl _, rfl, fun _ h _ => h, id⟩

theorem WStep_trans {st st1 st2 : WState} (h1 : WStep st st1)
    (h2 : WStep st1 st2) : WStep st st2 := by
  obtain ⟨i1, p1, t1, l1, e1⟩ := h1
  obtain ⟨i2, p2, t2, l2, e2⟩ := h2
  refine ⟨i2, Nat.le_trans p1 p2, ?_, ?_, fun g => e2 (e1 g)⟩
  · have heq : st2.buf.take st.pos = (st2.buf.take st1.pos).take st.pos := by
      rw [List.take_take, Nat.min_eq_left p1]
    rw [heq, t2, List.take_take, Nat.min_eq_left p1, t1]
  · intro x hx hlt
    exact l2 x (l1 x hx hlt) (Nat.lt_of_lt_of_le hlt p1)

theorem writeRawBytes_step (bs : List Nat) (st : WState) (hinv : WInv st) :
    WStep st (writeRawBytes bs st) := by
  unfold WInv at hinv
  refine ⟨?_, ?_, ?_, ?_, ?_⟩
  · simp [writeRawBytes, WInv, hinv]
  · simp [writeRawBytes]
  · simp only [writeRawBytes, hinv]
    rw [List.take_left, List.take_length]
  · exact fun x hx _ => hx
  · exact id

theorem writePadding_step (a : Nat) (st : WState) (ha : 0 < a)
    (hinv : WInv st) : WStep st (writePadding a st) := by
  unfold WInv at hinv
  rw [writePadding_eq]
  refine ⟨?_, ?_, ?_, ?_, ?_⟩
  · simp [WInv, hinv]
  · simp
  · simp only [hinv]
    rw [List.take_left, List.take_length]
  · exact fun x hx _ => hx
  · intro g
    rw [GoodEvents_append]
    refine ⟨g, ?_⟩
    intro ev hev
    split at hev
    · simp at hev
    · next h =>
      simp only [List.mem_singleton] at hev
      subst hev
      exact ⟨padCount_aligned a st.pos ha, padCount_minimal a st.pos⟩

theorem setBytesAt_length (buf : List Nat) (pos : Nat) (bytes : List Nat)
    (h : pos + bytes.length ≤ buf.length) :
    (setBytesAt buf pos bytes).length = buf.length := by
  unfold setBytesAt
  simp [List.length_take, List.length_drop]
  omega

theorem setBytesAt_take_of_le (buf : List Nat) (pos : Nat) (bytes : List Nat)
    (p0 : Nat) (h : p0 ≤ pos) (h2 : pos ≤ buf.length) :
    (setBytesAt buf pos bytes).take p0 = buf.take p0 := by
  unfold setBytesAt
  rw [List.append_assoc,
    List.take_append_of_le_length (by simp [List.length_take]; omega),
    List.take_take, Nat.min_eq_left h]

set_option maxHeartbeats 1000000 in
theorem fixedWireBytes_length (e : Endianness) (sig : Char) (v : DValue)
    (bs : List Nat) (h : fixedWireBytes e sig v = .ok bs) :
    bs.length = fixedTypeSizes sig := by
  unfold fixedWireBytes at h
  split at h <;> first
    | (injection h with h; subst h;
       simp [toBytes_length, fixedTypeSizes, Char.reduceEq])
    | cases h

theorem writePadding_pos (a : Nat) (st : WState) :
    (writePadding a st).pos = st.pos + padCount a st.pos := by
  rw [writePadding_eq]

theorem writePadding_later (a : Nat) (st : WState) :
    (writePadding a st).later = st.later := by
  rw [writePadding_eq]

/-- reserveAligned in terms of its two building blocks. -/
theorem reserveAligned_def (size : Nat) (st : WState) :
    reserveAligned size st =
      (writeRawBytes (List.replicate size 0) (writePadding size st),
       (writePadding size st).pos) := rfl

theorem fixedTypeSizes_pos (c : Char) (h : isFixedTypeSig c = true) :
    0 < fixedTypeSizes c := by
  unfold isFixedTypeSig at h
  simp only [Bool.or_eq_true, decide_eq_true_eq] at h
  rcases h with ((((((((rfl|rfl)|rfl)|rfl)|rfl)|rfl)|rfl)|rfl)|rfl)|rfl <;> decide

theorem eventsAppend_step (st : WState) (ev : WEvent) (hinv : WInv st)
    (hgood : goodEvent ev) :
    WStep st { st with events := st.events ++ [ev] } := by
  refine ⟨hinv, Nat.le_refl _, rfl, fun x hx _ => hx, fun g => ?_⟩
  rw [GoodEvents_append]
  exact ⟨g, fun e he => by simp at he; rw [he]; exact hgood⟩

theorem consLater_step (st st1 : WState) (p : Nat) (h : WStep st st1) :
    WStep st { st1 with later := p :: st1.later } := by
  obtain ⟨i1, p1, t1, l1, e1⟩ := h
  exact ⟨i1, p1, t1, fun x hx hlt => List.mem_cons_of_mem _ (l1 x hx hlt), e1⟩

theorem reserveAligned_step (size : Nat) (st : WState)
    (hs : 0 < size) (hinv : WInv st) :
    WStep st (reserveAligned size st).1 := by
  rw [reserveAligned_def]
  have h1 := writePadding_step size st hs hinv
  exact WStep_trans h1 (writeRawBytes_step _ _ h1.1)

/-- The successful writeFixedAt in closed form. -/
theorem writeFixedAt_spec (e : Endianness) (p : Nat) (sig : Char)
    (v : DValue) (st st' : WState)
    (hw : writeFixedAt e p sig v st = .ok st') :
    ∃ bs, validateFixed sig v = .ok () ∧ fixedWireBytes e sig v = .ok bs ∧
      bs.length = fixedTypeSizes sig ∧
      st' = { st with
        buf := setBytesAt st.buf p bs,
        events := st.events ++ [.fixedAt p (fixedTypeSizes sig)] } := by
  unfold writeFixedAt at hw
  cases hval : validateFixed sig v with
  | error err => rw [hval] at hw; simp [Bind.bind, Except.bind] at hw
  | ok u =>
    cases u
    rw [hval] at hw
    cases hbs : fixedWireBytes e sig v with
    | error err => rw [hbs] at hw; simp [Bind.bind, Except.bind] at hw
    | ok bs =>
      rw [hbs] at hw
      refine ⟨bs, rfl, rfl, fixedWireBytes_length e sig v bs hbs, ?_⟩
      simp only [Bind.bind, Except.bind] at hw
      injection hw with hw
      exact hw.symm

/-- The successful writeLaterCall in closed form. -/
theorem writeLaterCall_spec (e : Endianness) (sig : Char) (p : Nat)
    (v : DValue) (st st' : WState)
    (hw : writeLaterCall e sig p v st = .ok st') :
    p ∈ st.later ∧
    ∃ bs, validateFixed sig v = .ok () ∧ fixedWireBytes e sig v = .ok bs ∧
      bs.length = fixedTypeSizes sig ∧
      st' = { st with
        buf := setBytesAt st.buf p bs,
        later := st.later.erase p,
        events := st.events ++ [.fixedAt p (fixedTypeSizes sig)] } := by
  unfold writeLaterCall at hw
  split at hw
  · next hmem =>
    obtain ⟨bs, h0, h1, h2, h3⟩ := writeFixedAt_spec e p sig v _ st' hw
    exact ⟨hmem, bs, h0, h1, h2, h3⟩
  · cases hw

theorem writeFixed_step (e : Endianness) (sig : Char) (v : DValue)
    (st st' : WState) (hw : writeFixed e sig v st = .ok st')
    (hinv : WInv st) (hsize : 0 < fixedTypeSizes sig) : WStep st st' := by
  unfold writeFixed at hw
  rw [reserveAligned_def] at hw
  obtain ⟨bs, hval, hbs, hlen, hst'⟩ := writeFixedAt_spec _ _ _ _ _ _ hw
  subst hst'
  have hstep : WStep st
      (writeRawBytes (List.replicate (fixedTypeSizes sig) 0)
        (writePadding (fixedTypeSizes sig) st)) := by
    have h1 := writePadding_step (fixedTypeSizes sig) st hsize hinv
    exact WStep_trans h1 (writeRawBytes_step _ _ h1.1)
  set R := writeRawBytes (List.replicate (fixedTypeSizes sig) 0)
    (writePadding (fixedTypeSizes sig) st) with hR
  obtain ⟨iR, pR, tR, lR, eR⟩ := hstep
  have hRpos : R.pos = (writePadding (fixedTypeSizes sig) st).pos
      + fixedTypeSizes sig := by
    simp [hR, writeRawBytes]
  have hple : (writePadding (fixedTypeSizes sig) st).pos
      + fixedTypeSizes sig ≤ R.buf.length := by
    rw [← iR, hRpos]
  have halign : (writePadding (fixedTypeSizes sig) st).pos
      % fixedTypeSizes sig = 0 := by
    rw [writePadding_pos]
    exact padCount_aligned _ _ hsize
  have hple0 : st.pos ≤ (writePadding (fixedTypeSizes sig) st).pos := by
    rw [writePadding_pos]
    omega
  refine ⟨?_, ?_, ?_, ?_, ?_⟩
  · unfold WInv
    simp only
    rw [setBytesAt_length _ _ _ (by rw [hlen]; exact hple)]
    exact iR
  · simp only
    omega
  · simp only
    rw [setBytesAt_take_of_le _ _ _ _ (by omega) (by omega)]
    exact tR
  · exact fun x hx hlt => lR x hx hlt
  · intro g
    simp only
    rw [GoodEvents_append]
    refine ⟨eR g, fun ev hev => ?_⟩
    simp at hev
    rw [hev]
    exact halign

theorem writeString_step (e : Endianness) (sig : Char) (bs : List Nat)
    (st st' : WState) (hw : writeString e sig bs st = .ok st')
    (hinv : WInv st) : WStep st st' := by
  unfold writeString at hw
  split at hw <;>
  · rename_i hsig
    cases h1 : writeFixed e _ (.int bs.length) st with
    | error err => rw [h1] at hw; simp [Bind.bind, Except.bind] at hw
    | ok st1 =>
      rw [h1] at hw
      simp only [Bind.bind, Except.bind] at hw
      injection hw with hw
      subst hw
      have hst1 : WStep st st1 := writeFixed_step _ _ _ _ _ h1 hinv (by decide)
      exact WStep_trans hst1
        (WStep_trans (writeRawBytes_step bs st1 hst1.1)
          (writeRawBytes_step [0] _ (writeRawBytes_step bs st1 hst1.1).1))

theorem writeArrayPadding_step (et : DBusType2) (st : WState)
    (hinv : WInv st) : WStep st (writeArrayPadding et st) := by
  cases et with
  | base c =>
    simp only [writeArrayPadding]
    split
    · next h => exact writePadding_step _ _ (fixedTypeSizes_pos c h) hinv
    · split
      · exact writePadding_step _ _ (by decide) hinv
      · exact WStep_rfl st hinv
  | array t =>
    simp only [writeArrayPadding]
    exact writePadding_step _ _ (by decide) hinv
  | struct fts =>
    simp only [writeArrayPadding]
    exact writePadding_step _ _ (by decide) hinv
  | dict k v =>
    simp only [writeArrayPadding]
    exact writePadding_step _ _ (by decide) hinv

/-- The buffer after a writer step is the old buffer plus a suffix. -/
theorem WStep_buf {st st' : WState} (hinv : WInv st) (h : WStep st st') :
    st'.buf = st.buf ++ st'.buf.drop st.pos := by
  have htake := h.2.2.1
  have : st.buf.take st.pos = st.buf := by
    rw [hinv]
    exact List.take_length _
  conv in st'.buf => rw [← List.take_append_drop st.pos st'.buf]
  rw [htake, this]

/-- writeRawBytes of a replicate run, in record form. -/
theorem writeRawBytes_replicate_eq (k : Nat) (st : WState) :
    writeRawBytes (List.replicate k 0) st =
      { buf := st.buf ++ List.replicate k 0, pos := st.pos + k,
        later := st.later, events := st.events } := by
  unfold writeRawBytes
  simp

/-- writeLater in closed record form. -/
theorem writeLater_eq (sig : Char) (st : WState) :
    writeLater sig st =
      ({ buf := (writePadding (fixedTypeSizes sig) st).buf
              ++ List.replicate (fixedTypeSizes sig) 0,
         pos := (writePadding (fixedTypeSizes sig) st).pos + fixedTypeSizes sig,
         later := (writePadding (fixedTypeSizes sig) st).pos ::
           (writePadding (fixedTypeSizes sig) st).later,
         events := (writePadding (fixedTypeSizes sig) st).events },
       (writePadding (fixedTypeSizes sig) st).pos) := by
  simp [writeLater, reserveAligned, writeRawBytes]

/-- The facts about writeLater the container branches of write2 rely on. -/
theorem writeLater_facts (sig : Char) (st st1 : WState) (p : Nat)
    (hw : writeLater sig st = (st1, p))
    (hs : 0 < fixedTypeSizes sig) (hinv : WInv st) :
    WStep st st1 ∧ st.pos ≤ p ∧ p % fixedTypeSizes sig = 0 ∧
    p + fixedTypeSizes sig = st1.pos := by
  rw [writeLater_eq] at hw
  injection hw with h1 h2
  subst h1
  subst h2
  have h1 := writePadding_step (fixedTypeSizes sig) st hs hinv
  have h2 := writeRawBytes_step (List.replicate (fixedTypeSizes sig) 0) _ h1.1
  rw [writeRawBytes_replicate_eq] at h2
  refine ⟨?_, h1.2.1, ?_, rfl⟩
  · exact consLater_step _ _ _ (WStep_trans h1 h2)
  · rw [writePadding_pos]
    exact padCount_aligned _ _ hs

set_option maxHeartbeats 1600000 in
/-- Master safety lemma for the writer, by strong induction on the size of
the value: every successful write2, writeList, writeFields and writeEntries
is a WStep from its entry state. -/
theorem writer_step_main (n : Nat) :
    (∀ (e : Endianness) (t : DBusType2) (v : DValue) (st st' : WState),
      sizeOf v ≤ n → write2 e t v st = .ok st' → WInv st → WStep st st') ∧
    (∀ (e : Endianness) (t : DBusType2) (vs : List DValue) (st st' : WState),
      sizeOf vs ≤ n → writeList e t vs st = .ok st' → WInv st → WStep st st') ∧
    (∀ (e : Endianness) (ts : List DBusType2) (vs : List DValue)
        (st st' : WState),
      sizeOf vs ≤ n → writeFields e ts vs st = .ok st' → WInv st →
        WStep st st') ∧
    (∀ (e : Endianness) (kt vt : DBusType2)
        (ps : List (DValue × DValue)) (st st' : WState),
      sizeOf ps ≤ n → writeEntries e kt vt ps st = .ok st' → WInv st →
        WStep st st') := by
  induction n using Nat.strong_induction_on with
  | _ n IH =>
  refine ⟨?_, ?_, ?_, ?_⟩
  · -- write2
    intro e t v st st' hsz hw hinv
    cases t with
    | base c =>
      unfold write2 at hw
      split at hw
      · next hc =>
        exact writeFixed_step _ _ _ _ _ hw hinv (fixedTypeSizes_pos _ hc)
      · split at hw
        · split at hw
          · exact writeString_step _ _ _ _ _ hw hinv
          · simp at hw
        · split at hw
          · split at hw
            · next sig inner =>
              cases hws : writeString e 'g' (sigUtf8 sig) st with
              | error err =>
                rw [hws] at hw
                simp [Bind.bind, Except.bind] at hw
              | ok st1 =>
                rw [hws] at hw
                simp only [Bind.bind, Except.bind] at hw
                split at hw
                · cases hw
                · next innerT hp =>
                  have hstr := writeString_step _ _ _ _ _ hws hinv
                  have hszi : sizeOf inner < n := by
                    have : sizeOf inner < sizeOf (DValue.variant sig inner) := by simp
                    omega
                  exact WStep_trans hstr
                    ((IH (sizeOf inner) hszi).1 e innerT inner st1 st'
                      (Nat.le_refl _) hw hstr.1)
            · simp at hw
          · simp at hw
    | array elemType =>
      unfold write2 at hw
      split at hw
      · next elems =>
        rw [writeLater_eq] at hw
        dsimp only at hw
        split at hw
        · cases hw
        · next st3 hl =>
          obtain ⟨hw1, hw2, hw3, hw4⟩ :=
            writeLater_facts 'u' st _ _ (writeLater_eq 'u' st) (by decide) hinv
          have hw5 := writeArrayPadding_step elemType _ hw1.1
          have hszl : sizeOf elems < n := by
            have : sizeOf elems < sizeOf (DValue.arr elems) := by simp
            omega
          have hw6 := (IH (sizeOf elems) hszl).2.1 e elemType elems _ st3
            (Nat.le_refl _) hl hw5.1
          have hst3 : WStep st st3 :=
            WStep_trans hw1 (WStep_trans hw5 hw6)
          obtain ⟨hmem, bs, hval, hbs, hlen, hst'⟩ := writeLaterCall_spec _ _ _ _ _ _ hw
          subst hst'
          have hlpos : (writePadding (fixedTypeSizes 'u') st).pos
              + fixedTypeSizes 'u' ≤ st3.buf.length := by
            have e1 := hw5.2.1
            have e2 := hw6.2.1
            have e3 := hst3.1
            unfold WInv at e3
            omega
          refine ⟨?_, ?_, ?_, ?_, ?_⟩
          · unfold WInv
            simp only
            rw [setBytesAt_length _ _ _ (by rw [hlen]; exact hlpos)]
            exact hst3.1
          · simp only
            exact hst3.2.1
          · simp only
            rw [setBytesAt_take_of_le _ _ _ _ (by omega) (by omega)]
            exact hst3.2.2.1
          · intro x hx hlt
            simp only
            rw [List.mem_erase_of_ne (by omega)]
            exact hst3.2.2.2.1 x hx hlt
          · intro g
            simp only
            rw [GoodEvents_append]
            refine ⟨hst3.2.2.2.2 g, fun ev hev => ?_⟩
            simp at hev
            rw [hev]
            exact hw3
      · simp at hw
    | struct fieldTypes =>
      unfold write2 at hw
      split at hw
      · next fields =>
        dsimp only at hw
        have h1 := writePadding_step 8 st (by decide) hinv
        have hgood : goodEvent (.structStart (writePadding 8 st).pos) := by
          show (writePadding 8 st).pos % 8 = 0
          rw [writePadding_pos]
          exact padCount_aligned _ _ (by decide)
        have h2 := eventsAppend_step _ _ h1.1 hgood
        have hszf : sizeOf fields < n := by
          have : sizeOf fields < sizeOf (DValue.arr fields) := by simp
          omega
        have h3 := (IH (sizeOf fields) hszf).2.2.1 e fieldTypes fields _ st'
          (Nat.le_refl _) hw h2.1
        exact WStep_trans h1 (WStep_trans h2 h3)
      · simp at hw
    | dict keyType valueType =>
      unfold write2 at hw
      split at hw
      · next entries =>
        rw [writeLater_eq] at hw
        dsimp only at hw
        split at hw
        · cases hw
        · next st3 hl =>
          obtain ⟨hw1, hw2, hw3, hw4⟩ :=
            writeLater_facts 'u' st _ _ (writeLater_eq 'u' st) (by decide) hinv
          have hw5 := writePadding_step 8 _ (by decide) hw1.1
          have hszl : sizeOf entries < n := by
            have : sizeOf entries < sizeOf (DValue.dict entries) := by simp
            omega
          have hw6 := (IH (sizeOf entries) hszl).2.2.2 e keyType valueType
            entries _ st3 (Nat.le_refl _) hl hw5.1
          have hst3 : WStep st st3 :=
            WStep_trans hw1 (WStep_trans hw5 hw6)
          obtain ⟨hmem, bs, hval, hbs, hlen, hst'⟩ := writeLaterCall_spec _ _ _ _ _ _ hw
          subst hst'
          have hlpos : (writePadding (fixedTypeSizes 'u') st).pos
              + fixedTypeSizes 'u' ≤ st3.buf.length := by
            have e1 := hw5.2.1
            have e2 := hw6.2.1
            have e3 := hst3.1
            unfold WInv at e3
            omega
          refine ⟨?_, ?_, ?_, ?_, ?_⟩
          · unfold WInv
            simp only
            rw [setBytesAt_length _ _ _ (by rw [hlen]; exact hlpos)]
            exact hst3.1
          · simp only
            exact hst3.2.1
          · simp only
            rw [setBytesAt_take_of_le _ _ _ _ (by omega) (by omega)]
            exact hst3.2.2.1
          · intro x hx hlt
            simp only
            rw [List.mem_erase_of_ne (by omega)]
            exact hst3.2.2.2.1 x hx hlt
          · intro g
            simp only
            rw [GoodEvents_append]
            refine ⟨hst3.2.2.2.2 g, fun ev hev => ?_⟩
            simp at hev
            rw [hev]
            exact hw3
      · simp at hw
  · -- writeList
    intro e t vs st st' hsz hw hinv
    cases vs with
    | nil =>
      unfold writeList at hw
      injection hw with hw
      subst hw
      exact WStep_rfl st hinv
    | cons v rest =>
      unfold writeList at hw
      split at hw
      · cases hw
      · next st1 h1 =>
        have hsz1 : sizeOf v < n := by
          have : sizeOf v < sizeOf (v :: rest) := by simp; omega
          omega
        have hsz2 : sizeOf rest < n := by
          have : sizeOf rest < sizeOf (v :: rest) := by simp
          omega
        have hs1 := (IH (sizeOf v) hsz1).1 e t v st st1 (Nat.le_refl _) h1 hinv
        exact WStep_trans hs1
          ((IH (sizeOf rest) hsz2).2.1 e t rest st1 st' (Nat.le_refl _) hw hs1.1)
  · -- writeFields
    intro e ts vs st st' hsz hw hinv
    cases ts with
    | nil =>
      unfold writeFields at hw
      injection hw with hw
      subst hw
      exact WStep_rfl st hinv
    | cons t ts' =>
      cases vs with
      | nil =>
        unfold writeFields at hw
        cases hw
      | cons v vs' =>
        unfold writeFields at hw
        split at hw
        · cases hw
        · next st1 h1 =>
          have hsz1 : sizeOf v < n := by
            have : sizeOf v < sizeOf (v :: vs') := by simp; omega
            omega
          have hsz2 : sizeOf vs' < n := by
            have : sizeOf vs' < sizeOf (v :: vs') := by simp
            omega
          have hs1 := (IH (sizeOf v) hsz1).1 e t v st st1 (Nat.le_refl _) h1 hinv
          exact WStep_trans hs1
            ((IH (sizeOf vs') hsz2).2.2.1 e ts' vs' st1 st' (Nat.le_refl _)
              hw hs1.1)
  · -- writeEntries
    intro e kt vt ps st st' hsz hw hinv
    cases ps with
    | nil =>
      unfold writeEntries at hw
      injection hw with hw
      subst hw
      exact WStep_rfl st hinv
    | cons p rest =>
      obtain ⟨k, v⟩ := p
      unfold writeEntries at hw
      dsimp only at hw
      split at hw
      · cases hw
      · next st3 h3 =>
        split at hw
        · cases hw
        · next st4 h4 =>
          have h1 := writePadding_step 8 st (by decide) hinv
          have hgood : goodEvent (.dictEntryStart (writePadding 8 st).pos) := by
            show (writePadding 8 st).pos % 8 = 0
            rw [writePadding_pos]
            exact padCount_aligned _ _ (by decide)
          have h2 := eventsAppend_step _ _ h1.1 hgood
          have hszk : sizeOf k < n := by
            have : sizeOf k < sizeOf ((k, v) :: rest) := by simp; omega
            omega
          have hszv : sizeOf v < n := by
            have : sizeOf v < sizeOf ((k, v) :: rest) := by simp; omega
            omega
          have hszr : sizeOf rest < n := by
            have : sizeOf rest < sizeOf ((k, v) :: rest) := by simp
            omega
          have hs3 := (IH (sizeOf k) hszk).1 e kt k _ st3 (Nat.le_refl _) h3 h2.1
          have hs4 := (IH (sizeOf v) hszv).1 e vt v st3 st4 (Nat.le_refl _)
            h4 hs3.1
          have hs5 := (IH (sizeOf rest) hszr).2.2.2 e kt vt rest st4 st'
            (Nat.le_refl _) hw hs4.1
          exact WStep_trans h1 (WStep_trans h2
            (WStep_trans hs3 (WStep_trans hs4 hs5)))

theorem write2_step (e : Endianness) (t : DBusType2) (v : DValue)
    (st st' : WState) (hw : write2 e t v st = .ok st') (hinv : WInv st) :
    WStep st st' :=
  (writer_step_main (sizeOf v)).1 e t v st st' (Nat.le_refl _) hw hinv

theorem writeList_step (e : Endianness) (t : DBusType2) (vs : List DValue)
    (st st' : WState) (hw : writeList e t vs st = .ok st') (hinv : WInv st) :
    WStep st st' :=
  (writer_step_main (sizeOf vs)).2.1 e t vs st st' (Nat.le_refl _) hw hinv

theorem writeEntries_step (e : Endianness) (kt vt : DBusType2)
    (ps : List (DValue × DValue)) (st st' : WState)
    (hw : writeEntries e kt vt ps st = .ok st') (hinv : WInv st) :
    WStep st st' :=
  (writer_step_main (sizeOf ps)).2.2.2 e kt vt ps st st' (Nat.le_refl _) hw hinv

/-- C5: for every value encoded by the writer from a fresh message, every
fixed-size primitive is placed at an offset divisible by its size and every
struct and dict entry starts at an offset divisible by 8 (first conjunct,
over the ghost layout trace); and writePadding emits only zero bytes, of
exactly the minimum non-negative count that reaches the alignment (second
conjunct). -/
theorem c5_alignment (e : Endianness) (t : DBusType2) (v : DValue)
    (st' : WState) (hw : write2 e t v initWState = .ok st') :
    (∀ ev ∈ st'.events, goodEvent ev) ∧
    (∀ (a : Nat) (st : WState), 0 < a →
      (writePadding a st).buf = st.buf ++ List.replicate (padCount a st.pos) 0 ∧
      (st.pos + padCount a st.pos) % a = 0 ∧
      (∀ m < padCount a st.pos, (st.pos + m) % a ≠ 0)) := by
  constructor
  · have h := write2_step e t v initWState st' hw rfl
    exact h.2.2.2.2 (fun ev hev => absurd hev (List.not_mem_nil ev))
  · intro a st ha
    exact ⟨by rw [writePadding_eq], padCount_aligned a st.pos ha,
      padCount_minimal a st.pos⟩

/-- C5 witness: the struct (yu) with values [3, 5]: the byte at offset 0,
three zero padding bytes, the uint32 at offset 4; all events aligned. -/
theorem c5_alignment_witness :
    (∀ ev ∈ ([.structStart 0, .fixedAt 0 1, .paddingAt 1 3 4,
        .fixedAt 4 4] : List WEvent), goodEvent ev) ∧
    (∀ (a : Nat) (st : WState), 0 < a →
      (writePadding a st).buf = st.buf ++ List.replicate (padCount a st.pos) 0 ∧
      (st.pos + padCount a st.pos) % a = 0 ∧
      (∀ m < padCount a st.pos, (st.pos + m) % a ≠ 0)) :=
  c5_alignment .LE (.struct [.base 'y', .base 'u']) (.arr [.int 3, .int 5])
    ⟨[3, 0, 0, 0, 5, 0, 0, 0], 8, [],
     [.structStart 0, .fixedAt 0 1, .paddingAt 1 3 4, .fixedAt 4 4]⟩ rfl

theorem setBytesAt_exact (A Z B bs : List Nat) (hZ : Z.length = bs.length) :
    setBytesAt (A ++ Z ++ B) A.length bs = A ++ bs ++ B := by
  unfold setBytesAt
  have h1 : (A ++ Z ++ B).take A.length = A := by
    rw [List.append_assoc, List.take_left]
  have h2 : (A ++ Z ++ B).drop (A.length + bs.length) = B := by
    rw [← hZ, ← List.length_append A Z, List.drop_left]
  rw [h1, h2, List.append_assoc]

theorem validateFixed_u_range (m : Int)
    (h : validateFixed 'u' (.int m) = .ok ()) : 0 ≤ m ∧ m ≤ 2 ^ 32 - 1 := by
  by_cases h0 : 0 ≤ m ∧ m ≤ 2 ^ 32 - 1
  · exact h0
  · exfalso
    unfold validateFixed integerTypeRanges at h
    simp only [Char.reduceEq, reduceIte] at h
    have hb : (decide (m < 0) || decide (m > 2 ^ 32 - 1)) = true := by
      simp only [Bool.or_eq_true, decide_eq_true_eq]
      omega
    simp [hb] at h
    push_neg at h0
    omega

theorem toUnsigned_ofNat (w k : Nat) (h : k < 2 ^ (8 * w)) :
    toUnsigned w (k : Int) = k := by
  unfold toUnsigned
  have h1 : ((k : Int) % ((2 ^ (8 * w) : Nat) : Int))
      = ((k % 2 ^ (8 * w) : Nat) : Int) := by
    norm_cast
  rw [h1, Int.toNat_natCast]
  exact Nat.mod_eq_of_lt h

theorem writeArrayPadding_spec (et : DBusType2) (st : WState) :
    ∃ k E, writeArrayPadding et st =
      { buf := st.buf ++ List.replicate k 0, pos := st.pos + k,
        later := st.later, events := st.events ++ E } := by
  cases et with
  | base c =>
    simp only [writeArrayPadding]
    split
    · exact ⟨_, _, writePadding_eq _ _⟩
    · split
      · exact ⟨_, _, writePadding_eq _ _⟩
      · exact ⟨0, [], by simp⟩
  | array t =>
    simp only [writeArrayPadding]
    exact ⟨_, _, writePadding_eq _ _⟩
  | struct fts =>
    simp only [writeArrayPadding]
    exact ⟨_, _, writePadding_eq _ _⟩
  | dict k v =>
    simp only [writeArrayPadding]
    exact ⟨_, _, writePadding_eq _ _⟩

/-- The state after reserving the u length slot of a container write, in
literal form. -/
theorem writeLater_step_four (st : WState) (hinv : WInv st) :
    WStep st
      { buf := st.buf ++ List.replicate (padCount 4 st.pos) 0
             ++ List.replicate 4 0,
        pos := st.pos + padCount 4 st.pos + 4,
        later := (st.pos + padCount 4 st.pos) :: st.later,
        events := st.events ++
          (if st.pos % 4 = 0 then []
           else [.paddingAt st.pos (padCount 4 st.pos) 4]) } := by
  have hA := writePadding_step 4 st (by norm_num) hinv
  have hB := writeRawBytes_step (List.replicate 4 0) _ hA.1
  have hC := consLater_step _ _ ((writePadding 4 st).pos) (WStep_trans hA hB)
  rw [writeRawBytes_replicate_eq, writePadding_eq] at hC
  dsimp only at hC
  exact hC

/-- C3: in every successful array or dict write, the back-patched 32-bit
length prefix encodes exactly the number of bytes emitted by the element
(or entry) loop - the body written between states st2 and st3 below, which
contains the padding between consecutive elements - and not the alignment
padding (padLen zero bytes) inserted between the length prefix and the
first element. -/
theorem c3_length_covers_body (e : Endianness) (st : WState) (hinv : WInv st) :
    (∀ (et : DBusType2) (vs : List DValue) (st' : WState),
      write2 e (.array et) (.arr vs) st = .ok st' →
      ∃ (padLen : Nat) (body : List Nat) (st2 st3 : WState),
        st2.buf = st.buf ++ List.replicate (padCount 4 st.pos) 0
          ++ List.replicate 4 0 ++ List.replicate padLen 0 ∧
        writeList e et vs st2 = .ok st3 ∧
        st3.buf = st2.buf ++ body ∧
        body.length = st3.pos - st2.pos ∧
        body.length < 2 ^ 32 ∧
        st'.buf = st.buf ++ List.replicate (padCount 4 st.pos) 0
          ++ toBytes e 4 body.length ++ List.replicate padLen 0 ++ body) ∧
    (∀ (kt vt : DBusType2) (ps : List (DValue × DValue)) (st' : WState),
      write2 e (.dict kt vt) (.dict ps) st = .ok st' →
      ∃ (padLen : Nat) (body : List Nat) (st2 st3 : WState),
        st2.buf = st.buf ++ List.replicate (padCount 4 st.pos) 0
          ++ List.replicate 4 0 ++ List.replicate padLen 0 ∧
        writeEntries e kt vt ps st2 = .ok st3 ∧
        st3.buf = st2.buf ++ body ∧
        body.length = st3.pos - st2.pos ∧
        body.length < 2 ^ 32 ∧
        st'.buf = st.buf ++ List.replicate (padCount 4 st.pos) 0
          ++ toBytes e 4 body.length ++ List.replicate padLen 0 ++ body) := by
  have h4 : fixedTypeSizes 'u' = 4 := rfl
  have hP := writePadding_eq 4 st
  constructor
  · intro et vs st' hw
    unfold write2 at hw
    rw [writeLater_eq] at hw
    simp only [h4] at hw
    rw [hP] at hw
    dsimp only at hw
    obtain ⟨k, E, hpad⟩ := writeArrayPadding_spec et
      { buf := st.buf ++ List.replicate (padCount 4 st.pos) 0
             ++ List.replicate 4 0,
        pos := st.pos + padCount 4 st.pos + 4,
        later := (st.pos + padCount 4 st.pos) :: st.later,
        events := st.events ++
          (if st.pos % 4 = 0 then []
           else [.paddingAt st.pos (padCount 4 st.pos) 4]) }
    rw [hpad] at hw
    dsimp only at hw
    split at hw
    · cases hw
    · next st3 hl =>
      have hw1 := writeLater_step_four st hinv
      have hw2 := writeArrayPadding_step et _ hw1.1
      rw [hpad] at hw2
      dsimp only at hw2
      have hst2 := WStep_trans hw1 hw2
      have hst23 : WStep _ st3 := writeList_step e et vs _ st3 hl hst2.1
      have hst3 : WStep st st3 := WStep_trans hst2 hst23
      have hbody := WStep_buf hst2.1 hst23
      obtain ⟨hmem, bs, hval, hbs, hlenbs, hst'⟩ :=
        writeLaterCall_spec _ _ _ _ _ _ hw
      have hrange := validateFixed_u_range _ hval
      have hlt : st3.pos - (st.pos + padCount 4 st.pos + 4 + k) < 2 ^ 32 := by
        obtain ⟨hr1, hr2⟩ := hrange
        omega
      have hbs2 : bs = toBytes e 4
          (st3.pos - (st.pos + padCount 4 st.pos + 4 + k)) := by
        have hfw : fixedWireBytes e 'u'
            (.int ((st3.pos - (st.pos + padCount 4 st.pos + 4 + k) : Nat) : Int))
            = .ok (toBytes e 4 (toUnsigned 4
                ((st3.pos - (st.pos + padCount 4 st.pos + 4 + k) : Nat) : Int))) := rfl
        rw [hfw] at hbs
        injection hbs with hbs
        rw [← hbs, toUnsigned_ofNat 4 _ (by norm_num; exact hlt)]
      have hlenb : (st3.buf.drop (st.pos + padCount 4 st.pos + 4 + k)).length
          = st3.pos - (st.pos + padCount 4 st.pos + 4 + k) := by
        rw [List.length_drop, ← hst3.1]
      refine ⟨k, st3.buf.drop (st.pos + padCount 4 st.pos + 4 + k),
        { buf := st.buf ++ List.replicate (padCount 4 st.pos) 0
               ++ List.replicate 4 0 ++ List.replicate k 0,
          pos := st.pos + padCount 4 st.pos + 4 + k,
          later := (st.pos + padCount 4 st.pos) :: st.later,
          events := (st.events ++
            (if st.pos % 4 = 0 then []
             else [.paddingAt st.pos (padCount 4 st.pos) 4])) ++ E },
        st3, rfl, hl, hbody, hlenb, by rw [hlenb]; exact hlt, ?_⟩
      rw [hst']
      dsimp only
      have hApos : st.pos + padCount 4 st.pos
          = (st.buf ++ List.replicate (padCount 4 st.pos) 0).length := by
        unfold WInv at hinv
        simp [hinv]
      have hdecomp : st3.buf
          = (st.buf ++ List.replicate (padCount 4 st.pos) 0)
            ++ List.replicate 4 0
            ++ (List.replicate k 0
                ++ st3.buf.drop (st.pos + padCount 4 st.pos + 4 + k)) := by
        conv_lhs => rw [hbody]
        dsimp only
        rw [List.append_assoc
          (st.buf ++ List.replicate (padCount 4 st.pos) 0 ++ List.replicate 4 0)
          (List.replicate k 0) _]
      rw [hlenb, hbs2]
      conv_lhs => rw [hdecomp]
      rw [hApos, setBytesAt_exact _ _ _ _ (by simp [toBytes_length])]
      simp [List.append_assoc]
  · intro kt vt ps st' hw
    unfold write2 at hw
    rw [writeLater_eq] at hw
    simp only [h4] at hw
    rw [hP] at hw
    dsimp only at hw
    have hP8 := writePadding_eq 8
      { buf := st.buf ++ List.replicate (padCount 4 st.pos) 0
             ++ List.replicate 4 0,
        pos := st.pos + padCount 4 st.pos + 4,
        later := (st.pos + padCount 4 st.pos) :: st.later,
        events := st.events ++
          (if st.pos % 4 = 0 then []
           else [.paddingAt st.pos (padCount 4 st.pos) 4]) }
    rw [hP8] at hw
    dsimp only at hw
    split at hw
    · cases hw
    · next st3 hl =>
      have hw1 := writeLater_step_four st hinv
      have hw2 := writePadding_step 8 _ (by norm_num) hw1.1
      rw [hP8] at hw2
      dsimp only at hw2
      have hst2 := WStep_trans hw1 hw2
      have hst23 : WStep _ st3 := writeEntries_step e kt vt ps _ st3 hl hst2.1
      have hst3 : WStep st st3 := WStep_trans hst2 hst23
      have hbody := WStep_buf hst2.1 hst23
      obtain ⟨hmem, bs, hval, hbs, hlenbs, hst'⟩ :=
        writeLaterCall_spec _ _ _ _ _ _ hw
      have hrange := validateFixed_u_range _ hval
      have hlt : st3.pos - (st.pos + padCount 4 st.pos + 4
          + padCount 8 (st.pos + padCount 4 st.pos + 4)) < 2 ^ 32 := by
        obtain ⟨hr1, hr2⟩ := hrange
        omega
      have hbs2 : bs = toBytes e 4
          (st3.pos - (st.pos + padCount 4 st.pos + 4
            + padCount 8 (st.pos + padCount 4 st.pos + 4))) := by
        have hfw : fixedWireBytes e 'u'
            (.int ((st3.pos - (st.pos + padCount 4 st.pos + 4
              + padCount 8 (st.pos + padCount 4 st.pos + 4)) : Nat) : Int))
            = .ok (toBytes e 4 (toUnsigned 4
                ((st3.pos - (st.pos + padCount 4 st.pos + 4
                  + padCount 8 (st.pos + padCount 4 st.pos + 4)) : Nat) : Int))) := rfl
        rw [hfw] at hbs
        injection hbs with hbs
        rw [← hbs, toUnsigned_ofNat 4 _ (by norm_num; exact hlt)]
      have hlenb : (st3.buf.drop (st.pos + padCount 4 st.pos + 4
          + padCount 8 (st.pos + padCount 4 st.pos + 4))).length
          = st3.pos - (st.pos + padCount 4 st.pos + 4
            + padCount 8 (st.pos + padCount 4 st.pos + 4)) := by
        rw [List.length_drop, ← hst3.1]
      refine ⟨padCount 8 (st.pos + padCount 4 st.pos + 4),
        st3.buf.drop (st.pos + padCount 4 st.pos + 4
          + padCount 8 (st.pos + padCount 4 st.pos + 4)),
        { buf := st.buf ++ List.replicate (padCount 4 st.pos) 0
               ++ List.replicate 4 0
               ++ List.replicate (padCount 8 (st.pos + padCount 4 st.pos + 4)) 0,
          pos := st.pos + padCount 4 st.pos + 4
               + padCount 8 (st.pos + padCount 4 st.pos + 4),
          later := (st.pos + padCount 4 st.pos) :: st.later,
          events := (st.events ++
            (if st.pos % 4 = 0 then []
             else [.paddingAt st.pos (padCount 4 st.pos) 4])) ++
            (if (st.pos + padCount 4 st.pos + 4) % 8 = 0 then []
             else [.paddingAt (st.pos + padCount 4 st.pos + 4)
               (padCount 8 (st.pos + padCount 4 st.pos + 4)) 8]) },
        st3, rfl, hl, hbody, hlenb, by rw [hlenb]; exact hlt, ?_⟩
      rw [hst']
      dsimp only
      have hApos : st.pos + padCount 4 st.pos
          = (st.buf ++ List.replicate (padCount 4 st.pos) 0).length := by
        unfold WInv at hinv
        simp [hinv]
      have hdecomp : st3.buf
          = (st.buf ++ List.replicate (padCount 4 st.pos) 0)
            ++ List.replicate 4 0
            ++ (List.replicate (padCount 8 (st.pos + padCount 4 st.pos + 4)) 0
                ++ st3.buf.drop (st.pos + padCount 4 st.pos + 4
                  + padCount 8 (st.pos + padCount 4 st.pos + 4))) := by
        conv_lhs => rw [hbody]
        dsimp only
        rw [List.append_assoc
          (st.buf ++ List.replicate (padCount 4 st.pos) 0 ++ List.replicate 4 0)
          (List.replicate (padCount 8 (st.pos + padCount 4 st.pos + 4)) 0) _]
      rw [hlenb, hbs2]
      conv_lhs => rw [hdecomp]
      rw [hApos, setBytesAt_exact _ _ _ _ (by simp [toBytes_length])]
      simp [List.append_assoc]

/-- C3 witness: writing the uint16 array [1, 2] from the fresh state: the
length prefix 4 covers exactly the four element bytes [1,0,2,0]. -/
theorem c3_length_covers_body_witness :
    WInv initWState ∧
    write2 .LE (.array (.base 'q')) (.arr [.int 1, .int 2]) initWState
      = .ok ⟨[4, 0, 0, 0, 1, 0, 2, 0], 8, [],
             [.fixedAt 4 2, .fixedAt 6 2, .fixedAt 0 4]⟩ ∧
    (∃ (padLen : Nat) (body : List Nat) (st2 st3 : WState),
      st2.buf = initWState.buf
        ++ List.replicate (padCount 4 initWState.pos) 0
        ++ List.replicate 4 0 ++ List.replicate padLen 0 ∧
      writeList .LE (.base 'q') [.int 1, .int 2] st2 = .ok st3 ∧
      st3.buf = st2.buf ++ body ∧
      body.length = st3.pos - st2.pos ∧
      body.length < 2 ^ 32 ∧
      (⟨[4, 0, 0, 0, 1, 0, 2, 0], 8, [],
        [.fixedAt 4 2, .fixedAt 6 2, .fixedAt 0 4]⟩ : WState).buf
        = initWState.buf
          ++ List.replicate (padCount 4 initWState.pos) 0
          ++ toBytes .LE 4 body.length ++ List.replicate padLen 0 ++ body) :=
  ⟨rfl, rfl,
   (c3_length_covers_body .LE initWState rfl).1 (.base 'q') [.int 1, .int 2] _ rfl⟩

/-- Closed form of reserveAligned. -/
theorem reserveAligned_eq (size : Nat) (st : WState) :
    reserveAligned size st =
      ({ buf := st.buf ++ List.replicate (padCount size st.pos) 0
              ++ List.replicate size 0,
         pos := st.pos + padCount size st.pos + size,
         later := st.later,
         events := st.events ++
           if st.pos % size = 0 then []
           else [.paddingAt st.pos (padCount size st.pos) size] },
       st.pos + padCount size st.pos) := by
  unfold reserveAligned
  rw [writePadding_eq]
  simp [writeRawBytes, List.append_assoc]

/-- C9: for the closure returned by writeLater, the first invocation
succeeds and stores the wire bytes of the value at the reserved position,
and a second invocation of the same closure fails with the multiple-calls
error naming the signature code and the reserved position.  The freshness
hypothesis states that all previously pending positions lie before the
current position, which holds for every state the writer can reach. -/
theorem c9_writeLater_single_call (e : Endianness) (sig : Char)
    (v v2 : DValue) (st st1 : WState) (p : Nat) (bs : List Nat)
    (hw : writeLater sig st = (st1, p))
    (hfresh : ∀ q ∈ st.later, q < st.pos)
    (hval : validateFixed sig v = .ok ())
    (hbytes : fixedWireBytes e sig v = .ok bs) :
    ∃ st2,
      writeLaterCall e sig p v st1 = .ok st2 ∧
      st2.buf = setBytesAt st1.buf p bs ∧
      writeLaterCall e sig p v2 st2 = .error (.multipleWriteLater sig p) := by
  simp only [writeLater, reserveAligned_eq] at hw
  injection hw with h1 h2
  subst h1
  subst h2
  have hnot : st.pos + padCount (fixedTypeSizes sig) st.pos ∉ st.later := by
    intro hmem
    have := hfresh _ hmem
    omega
  refine ⟨{ buf := setBytesAt (st.buf
                ++ List.replicate (padCount (fixedTypeSizes sig) st.pos) 0
                ++ List.replicate (fixedTypeSizes sig) 0)
                (st.pos + padCount (fixedTypeSizes sig) st.pos) bs,
            pos := st.pos + padCount (fixedTypeSizes sig) st.pos
                + fixedTypeSizes sig,
            later := st.later,
            events := (st.events ++
                (if st.pos % fixedTypeSizes sig = 0 then []
                 else [.paddingAt st.pos (padCount (fixedTypeSizes sig) st.pos)
                         (fixedTypeSizes sig)]))
              ++ [.fixedAt (st.pos + padCount (fixedTypeSizes sig) st.pos)
                    (fixedTypeSizes sig)] },
          ?_, rfl, ?_⟩
  · unfold writeLaterCall
    rw [if_pos (List.mem_cons_self _ _)]
    unfold writeFixedAt
    rw [hval, hbytes]
    simp only [List.erase_cons_head]
    rfl
  · unfold writeLaterCall
    rw [if_neg hnot]

/-- C9 witness: the theorem applied to a writeLater of a u slot on the
fresh writer, filled with 5 and then called again with 7. -/
theorem c9_writeLater_witness :
    ∃ st2,
      writeLaterCall .LE 'u' 0 (.int 5) ⟨[0, 0, 0, 0], 4, [0], []⟩ = .ok st2 ∧
      st2.buf = setBytesAt [0, 0, 0, 0] 0 (toBytes .LE 4 (toUnsigned 4 5)) ∧
      writeLaterCall .LE 'u' 0 (.int 7) st2
        = .error (.multipleWriteLater 'u' 0) :=
  c9_writeLater_single_call .LE 'u' (.int 5) (.int 7) initWState
    ⟨[0, 0, 0, 0], 4, [0], []⟩ 0 (toBytes .LE 4 (toUnsigned 4 5)) rfl
    (by simp [initWState]) rfl rfl

/-- C10 witness: a two-byte string with the non-zero terminator byte 7. -/
theorem c10_readString_witness :
    readString .LE 's' ⟨toBytes .LE 4 ([104, 105] : List Nat).length
        ++ ([104, 105] ++ 7 :: ([9] : List Nat)), 0⟩
      = .ok (.str [104, 105], ⟨[9], 7⟩) := by
  have h := (c10_readString .LE [104, 105] 7 [9] (by norm_num)).1
  simpa using h

theorem renderSig_head_cons (t : DBusType2) :
    ∃ s, renderSig t = sigHead t :: s := by
  cases t with
  | base c => exact ⟨[], rfl⟩
  | array t => exact ⟨renderSig t, rfl⟩
  | dict k v => exact ⟨'{' :: (renderSig k ++ renderSig v ++ ['}']), rfl⟩
  | struct fts => exact ⟨renderSigs fts ++ [')'], rfl⟩

theorem sigHead_ne (t : DBusType2) (hv : validT t = true) :
    sigHead t ≠ '{' ∧ sigHead t ≠ '}' ∧ sigHead t ≠ ')' := by
  cases t with
  | base c =>
    simp only [validT] at hv
    refine ⟨?_, ?_, ?_⟩
    all_goals intro he
    all_goals rw [show sigHead (DBusType2.base c) = c from rfl] at he
    all_goals subst he
    all_goals revert hv
    all_goals decide
  | array t => exact ⟨by simp [sigHead], by simp [sigHead], by simp [sigHead]⟩
  | dict k v =>
    exact ⟨by simp [sigHead], by simp [sigHead], by simp [sigHead]⟩
  | struct fts =>
    exact ⟨by simp [sigHead], by simp [sigHead], by simp [sigHead]⟩

set_option maxHeartbeats 2000000 in
mutual

/-- Completeness of parseNextSig: the canonical signature of every valid
descriptor parses back to that descriptor and consumes exactly itself. -/
theorem parseNextSig_complete (t : DBusType2) (hv : validT t = true)
    (rest cs : List Char) (hcs : cs = renderSig t ++ rest) :
    ∃ h : rest.length < cs.length,
      parseNextSig cs = .ok (t, ⟨rest, h⟩) := by
  cases t with
  | base c =>
    have hcs2 : cs = c :: rest := by rw [hcs]; rfl
    subst hcs2
    refine ⟨by simp only [List.length_cons]; omega, ?_⟩
    rw [parseNextSig]
    simp only [validT] at hv
    simp [hv]
  | array t =>
    have hv' : validT t = true := by simpa [validT] using hv
    obtain ⟨s1, hs1⟩ := renderSig_head_cons t
    have hne := (sigHead_ne t hv').1
    obtain ⟨h1, heq1⟩ := parseNextSig_complete t hv' rest (renderSig t ++ rest) rfl
    have hcs2 : cs = 'a' :: (renderSig t ++ rest) := by rw [hcs]; simp [renderSig]
    subst hcs2
    refine ⟨by simp only [List.length_cons, List.length_append]; omega, ?_⟩
    rw [parseNextSig, heq1]
    have hh : headIs (renderSig t ++ rest) '{' = false := by
      rw [hs1]
      simp [headIs, hne]
    simp [hh]
    decide
  | dict k v =>
    have hvk : validT k = true := by
      simp only [validT, Bool.and_eq_true] at hv
      exact hv.1
    have hvv : validT v = true := by
      simp only [validT, Bool.and_eq_true] at hv
      exact hv.2
    have hvs : validTs [k, v] = true := by simp [validTs, hvk, hvv]
    obtain ⟨h1, heq1⟩ := parseSigsUntil_complete [k, v] hvs '}' (Or.inl rfl)
      rest (renderSig k ++ (renderSig v ++ '}' :: rest))
      (by simp [renderSigs])
    have hcs2 : cs = 'a' :: '{' :: (renderSig k ++ (renderSig v ++ '}' :: rest)) := by
      rw [hcs]
      simp [renderSig]
    subst hcs2
    refine ⟨by simp only [List.length_cons, List.length_append]; omega, ?_⟩
    rw [parseNextSig]
    simp only [headIs, List.head?_cons, List.tail_cons]
    rw [heq1]
    simp
    decide
  | struct fts =>
    have hvf : validTs fts = true := by simpa [validT] using hv
    obtain ⟨h1, heq1⟩ := parseSigsUntil_complete fts hvf ')' (Or.inr rfl)
      rest (renderSigs fts ++ ')' :: rest) rfl
    have hcs2 : cs = '(' :: (renderSigs fts ++ ')' :: rest) := by
      rw [hcs]
      simp [renderSig]
    subst hcs2
    refine ⟨by simp only [List.length_cons, List.length_append]; omega, ?_⟩
    rw [parseNextSig, heq1]
    simp
    decide
termination_by (renderSig t).length
decreasing_by
  all_goals subst_vars
  all_goals simp [renderSig, renderSigs]
  all_goals omega

/-- Completeness of parseSigsUntil: the concatenated canonical signatures of
valid descriptors followed by the delimiter parse back to the list. -/
theorem parseSigsUntil_complete (ts : List DBusType2) (hv : validTs ts = true)
    (endc : Char) (he : endc = '}' ∨ endc = ')') (rest cs : List Char)
    (hcs : cs = renderSigs ts ++ endc :: rest) :
    ∃ h : rest.length < cs.length,
      parseSigsUntil endc cs = .ok (ts, ⟨rest, h⟩) := by
  cases ts with
  | nil =>
    have hcs2 : cs = endc :: rest := by rw [hcs]; rfl
    subst hcs2
    refine ⟨by simp only [List.length_cons]; omega, ?_⟩
    rw [parseSigsUntil]
    simp
  | cons t ts' =>
    have hvt : validT t = true := by
      simp only [validTs, Bool.and_eq_true] at hv
      exact hv.1
    have hvts : validTs ts' = true := by
      simp only [validTs, Bool.and_eq_true] at hv
      exact hv.2
    obtain ⟨s1, hs1⟩ := renderSig_head_cons t
    have hne := sigHead_ne t hvt
    have hnee : sigHead t ≠ endc := by
      rcases he with he | he <;> rw [he]
      · exact hne.2.1
      · exact hne.2.2
    obtain ⟨h1, heq1⟩ := parseNextSig_complete t hvt
      (renderSigs ts' ++ endc :: rest)
      (sigHead t :: (s1 ++ (renderSigs ts' ++ endc :: rest)))
      (by rw [hs1]; simp)
    obtain ⟨h2, heq2⟩ := parseSigsUntil_complete ts' hvts endc he rest
      (renderSigs ts' ++ endc :: rest) rfl
    have hcs2 : cs = sigHead t :: (s1 ++ (renderSigs ts' ++ endc :: rest)) := by
      rw [hcs]
      simp [renderSigs, hs1]
    subst hcs2
    refine ⟨by simp only [List.length_cons, List.length_append]; omega, ?_⟩
    rw [parseSigsUntil]
    simp only [hnee, if_false]
    rw [heq1]
    simp [heq2]
termination_by (renderSigs ts).length + 1
decreasing_by
  all_goals subst_vars
  all_goals obtain ⟨s0, hs0⟩ := renderSig_head_cons t
  all_goals simp [renderSigs, hs0]
  all_goals omega

end

/-- parseSig accepts the canonical signature of every valid descriptor. -/
theorem parseSig_complete (t : DBusType2) (hv : validT t = true)
    (cs : List Char) (hcs : cs = renderSig t) : parseSig cs = .ok t := by
  obtain ⟨h, heq⟩ := parseNextSig_complete t hv [] cs (by rw [hcs]; simp)
  unfold parseSig
  rw [heq]
  simp

set_option maxHeartbeats 2000000 in
/-- parseSigs accepts every concatenation of canonical signatures of valid
descriptors, returning the descriptors in order. -/
theorem parseSigs_complete (ts : List DBusType2) (hv : validTs ts = true)
    (cs : List Char) (hcs : cs = renderSigs ts) : parseSigs cs = .ok ts := by
  induction ts generalizing cs with
  | nil =>
    subst hcs
    rw [show renderSigs [] = ([] : List Char) from rfl]
    rw [parseSigs]
  | cons t ts' ih =>
    have hvt : validT t = true := by
      simp only [validTs, Bool.and_eq_true] at hv
      exact hv.1
    have hvts : validTs ts' = true := by
      simp only [validTs, Bool.and_eq_true] at hv
      exact hv.2
    obtain ⟨s1, hs1⟩ := renderSig_head_cons t
    obtain ⟨h1, heq1⟩ := parseNextSig_complete t hvt (renderSigs ts')
      (sigHead t :: (s1 ++ renderSigs ts')) (by rw [hs1]; simp)
    have hcs2 : cs = sigHead t :: (s1 ++ renderSigs ts') := by
      rw [hcs]
      simp [renderSigs, hs1]
    subst hcs2
    rw [parseSigs, heq1]
    simp [ih hvts _ rfl]

theorem renderSig_length_pos (t : DBusType2) : 0 < (renderSig t).length := by
  obtain ⟨s, hs⟩ := renderSig_head_cons t
  simp [hs]

set_option maxHeartbeats 2000000 in
/-- Soundness of the signature parser: a successful parse returns a valid
descriptor and consumed exactly its canonical signature (first conjunct);
likewise for the delimiter loop (second conjunct). -/
theorem parser_sound_main : ∀ n : Nat,
    (∀ (cs : List Char) (t : DBusType2)
        (r : { rest : List Char // rest.length < cs.length }),
      cs.length ≤ n → parseNextSig cs = .ok (t, r) →
      validT t = true ∧ cs = renderSig t ++ r.val) ∧
    (∀ (endc : Char) (cs : List Char) (ts : List DBusType2)
        (r : { rest : List Char // rest.length < cs.length }),
      cs.length ≤ n → parseSigsUntil endc cs = .ok (ts, r) →
      validTs ts = true ∧ cs = renderSigs ts ++ endc :: r.val) := by
  intro n
  induction n with
  | zero =>
    constructor
    · intro cs t r hn hp
      have hcs : cs = [] := List.length_eq_zero.mp (Nat.le_zero.mp hn)
      subst hcs
      rw [parseNextSig] at hp
      cases hp
    · intro endc cs ts r hn hp
      have hcs : cs = [] := List.length_eq_zero.mp (Nat.le_zero.mp hn)
      subst hcs
      rw [parseSigsUntil] at hp
      cases hp
  | succ n ih =>
    have h1 : ∀ (cs : List Char) (t : DBusType2)
        (r : { rest : List Char // rest.length < cs.length }),
        cs.length ≤ n + 1 → parseNextSig cs = .ok (t, r) →
        validT t = true ∧ cs = renderSig t ++ r.val := by
      intro cs t r hn hp
      match cs, r with
      | [], r =>
        rw [parseNextSig] at hp
        cases hp
      | c :: tail, r =>
        rw [parseNextSig] at hp
        split at hp
        · next hcond =>
          simp only [Except.ok.injEq, Prod.mk.injEq] at hp
          obtain ⟨ht, hr⟩ := hp
          subst ht
          subst hr
          exact ⟨by simpa [validT] using hcond, by simp [renderSig]⟩
        · rename_i hcond1
          split at hp
          · rename_i hcond2
            simp only [Bool.and_eq_true, decide_eq_true_eq] at hcond2
            obtain ⟨hc, hh⟩ := hcond2
            subst hc
            have htail : tail = '{' :: tail.tail := by
              cases tail with
              | nil => simp [headIs] at hh
              | cons a b =>
                have ha : a = '{' := by simpa [headIs] using hh
                simp [ha]
            split at hp
            · cases hp
            · next types rest2 h2 heqU =>
              split at hp
              · next keyType valueType =>
                simp only [Except.ok.injEq, Prod.mk.injEq] at hp
                obtain ⟨ht, hr⟩ := hp
                subst ht
                subst hr
                have hl : tail.tail.length ≤ n := by
                  have hlt := List.length_tail tail
                  rw [htail] at hn
                  simp only [List.length_cons] at hn
                  omega
                obtain ⟨hval, hrender⟩ :=
                  ih.2 '}' tail.tail [keyType, valueType] _ hl heqU
                have hrender2 : tail.tail
                    = renderSigs [keyType, valueType] ++ '}' :: rest2 := hrender
                simp only [validTs, Bool.and_eq_true] at hval
                refine ⟨by simp [validT, hval.1, hval.2.1], ?_⟩
                show 'a' :: tail
                  = renderSig (DBusType2.dict keyType valueType) ++ rest2
                rw [htail, hrender2]
                simp [renderSig, renderSigs, List.append_assoc]
              · cases hp
          · rename_i hcond2
            split at hp
            · rename_i hcond3
              have hc : c = 'a' := by simpa using hcond3
              subst hc
              split at hp
              · cases hp
              · next elemType rest2 hr2 heqN =>
                simp only [Except.ok.injEq, Prod.mk.injEq] at hp
                obtain ⟨ht, hr⟩ := hp
                subst ht
                subst hr
                have hl : tail.length ≤ n := by
                  simp only [List.length_cons] at hn
                  omega
                obtain ⟨hval, hrender⟩ := ih.1 tail elemType _ hl heqN
                have hrender2 : tail = renderSig elemType ++ rest2 := hrender
                refine ⟨by simpa [validT] using hval, ?_⟩
                show 'a' :: tail = renderSig (DBusType2.array elemType) ++ rest2
                rw [hrender2]
                simp [renderSig]
            · rename_i hcond3
              split at hp
              · rename_i hcond4
                have hc : c = '(' := by simpa using hcond4
                subst hc
                split at hp
                · cases hp
                · next fieldTypes rest2 hr2 heqU =>
                  simp only [Except.ok.injEq, Prod.mk.injEq] at hp
                  obtain ⟨ht, hr⟩ := hp
                  subst ht
                  subst hr
                  have hl : tail.length ≤ n := by
                    simp only [List.length_cons] at hn
                    omega
                  obtain ⟨hval, hrender⟩ := ih.2 ')' tail fieldTypes _ hl heqU
                  have hrender2 : tail = renderSigs fieldTypes ++ ')' :: rest2 :=
                    hrender
                  refine ⟨by simpa [validT] using hval, ?_⟩
                  show '(' :: tail
                    = renderSig (DBusType2.struct fieldTypes) ++ rest2
                  rw [hrender2]
                  simp [renderSig]
              · rename_i hcond4
                split at hp
                · cases hp
                · cases hp
    refine ⟨h1, ?_⟩
    intro endc cs ts r hn hp
    match cs, r with
    | [], r =>
      rw [parseSigsUntil] at hp
      cases hp
    | c :: tail, r =>
      rw [parseSigsUntil] at hp
      split at hp
      · next hc =>
        subst hc
        simp only [Except.ok.injEq, Prod.mk.injEq] at hp
        obtain ⟨ht, hr⟩ := hp
        subst ht
        subst hr
        exact ⟨rfl, by simp [renderSigs]⟩
      · next hc =>
        split at hp
        · cases hp
        · next t1 rest1 hr1 heqN =>
          split at hp
          · cases hp
          · next ts1 rest2 hr2 heqU =>
            simp only [Except.ok.injEq, Prod.mk.injEq] at hp
            obtain ⟨ht, hr⟩ := hp
            subst ht
            subst hr
            obtain ⟨hvalA, hrenderA⟩ := h1 (c :: tail) t1 _ hn heqN
            have hl : rest1.length ≤ n := by
              simp only [List.length_cons] at hn hr1
              omega
            obtain ⟨hvalB, hrenderB⟩ := ih.2 endc rest1 ts1 _ hl heqU
            have hA : c :: tail = renderSig t1 ++ rest1 := hrenderA
            have hB : rest1 = renderSigs ts1 ++ endc :: rest2 := hrenderB
            refine ⟨by simp [validTs, hvalA, hvalB], ?_⟩
            show c :: tail = renderSigs (t1 :: ts1) ++ endc :: rest2
            rw [hA, hB]
            simp [renderSigs, List.append_assoc]

theorem GenCompleteType_ne_nil (s : List Char) (h : GenCompleteType s) :
    s ≠ [] := by
  cases h <;> simp

theorem SpecCompleteType_ne_nil (s : List Char) (h : SpecCompleteType s) :
    s ≠ [] := by
  cases h <;> simp

mutual

/-- Every valid descriptor's canonical signature is a complete type of the
grammar as the parser realises it. -/
theorem validT_gen (t : DBusType2) (hv : validT t = true) :
    GenCompleteType (renderSig t) := by
  cases t with
  | base c =>
    simp only [validT, Bool.or_eq_true, decide_eq_true_eq] at hv
    rcases hv with (hf | hs) | hveq
    · exact .fixed c hf
    · exact .stringLike c hs
    · subst hveq
      exact .variant
  | array t =>
    exact .array (renderSig t) (validT_gen t (by simpa [validT] using hv))
  | dict k v =>
    simp only [validT, Bool.and_eq_true] at hv
    exact .dict (renderSig k) (renderSig v)
      (validT_gen k hv.1) (validT_gen v hv.2)
  | struct fts =>
    exact .strct (renderSigs fts) (validTs_gen fts (by simpa [validT] using hv))

/-- Every valid descriptor list renders to a concatenation of complete
types. -/
theorem validTs_gen (ts : List DBusType2) (hv : validTs ts = true) :
    GenCompleteTypes (renderSigs ts) := by
  cases ts with
  | nil => exact .nil
  | cons t ts' =>
    simp only [validTs, Bool.and_eq_true] at hv
    exact .cons (renderSig t) (renderSigs ts')
      (validT_gen t hv.1) (validTs_gen ts' hv.2)

end

set_option maxHeartbeats 1000000 in
/-- Every complete type of the realised grammar is the canonical signature
of a valid descriptor (first conjunct), and likewise for concatenations
(second conjunct). -/
theorem gen_render_main : ∀ n : Nat,
    (∀ s : List Char, s.length ≤ n → GenCompleteType s →
      ∃ t, validT t = true ∧ renderSig t = s) ∧
    (∀ s : List Char, s.length ≤ n → GenCompleteTypes s →
      ∃ ts, validTs ts = true ∧ renderSigs ts = s) := by
  intro n
  induction n with
  | zero =>
    constructor
    · intro s hn hg
      have hs : s = [] := List.length_eq_zero.mp (Nat.le_zero.mp hn)
      exact absurd hs (GenCompleteType_ne_nil s hg)
    · intro s hn hg
      have hs : s = [] := List.length_eq_zero.mp (Nat.le_zero.mp hn)
      subst hs
      exact ⟨[], rfl, rfl⟩
  | succ n ih =>
    have h1 : ∀ s : List Char, s.length ≤ n + 1 → GenCompleteType s →
        ∃ t, validT t = true ∧ renderSig t = s := by
      intro s hn hg
      cases hg with
      | fixed c hc => exact ⟨.base c, by simp [validT, hc], rfl⟩
      | stringLike c hc => exact ⟨.base c, by simp [validT, hc], rfl⟩
      | variant => exact ⟨.base 'v', by decide, rfl⟩
      | array s' hs' =>
        have hl : s'.length ≤ n := by
          simp only [List.length_cons] at hn
          omega
        obtain ⟨t', hv', hr'⟩ := ih.1 s' hl hs'
        exact ⟨.array t', by simpa [validT] using hv', by simp [renderSig, hr']⟩
      | dict k v hk hv =>
        have hlk : k.length ≤ n := by
          simp only [List.length_cons, List.length_append] at hn
          omega
        have hlv : v.length ≤ n := by
          simp only [List.length_cons, List.length_append] at hn
          omega
        obtain ⟨tk, hvk, hrk⟩ := ih.1 k hlk hk
        obtain ⟨tv, hvv, hrv⟩ := ih.1 v hlv hv
        exact ⟨.dict tk tv, by simp [validT, hvk, hvv],
          by simp [renderSig, hrk, hrv]⟩
      | strct ss hss =>
        have hl : ss.length ≤ n := by
          simp only [List.length_cons, List.length_append] at hn
          omega
        obtain ⟨ts, hvs, hrs⟩ := ih.2 ss hl hss
        exact ⟨.struct ts, by simpa [validT] using hvs,
          by simp [renderSig, hrs]⟩
    refine ⟨h1, ?_⟩
    intro s hn hg
    cases hg with
    | nil => exact ⟨[], rfl, rfl⟩
    | cons s1 ss hs1 hss =>
      have hl1 : s1.length ≤ n + 1 := by
        simp only [List.length_append] at hn
        omega
      obtain ⟨t1, hv1, hr1⟩ := h1 s1 hl1 hs1
      have hne : s1 ≠ [] := GenCompleteType_ne_nil s1 hs1
      have hlen1 : 0 < s1.length := List.length_pos.mpr hne
      have hls : ss.length ≤ n := by
        simp only [List.length_append] at hn
        omega
      obtain ⟨ts', hvs, hrs⟩ := ih.2 ss hls hss
      exact ⟨t1 :: ts', by simp [validTs, hv1, hvs],
        by simp [renderSigs, hr1, hrs]⟩

set_option maxHeartbeats 1000000 in
/-- The spec grammar is included in the realised grammar: every complete
type of spec.md section 4.C is accepted structure for the parser. -/
theorem spec_gen_main : ∀ n : Nat,
    (∀ s : List Char, s.length ≤ n → SpecCompleteType s →
      GenCompleteType s) ∧
    (∀ s : List Char, s.length ≤ n → SpecCompleteTypes s →
      GenCompleteTypes s) := by
  intro n
  induction n with
  | zero =>
    constructor
    · intro s hn hg
      have hs : s = [] := List.length_eq_zero.mp (Nat.le_zero.mp hn)
      exact absurd hs (SpecCompleteType_ne_nil s hg)
    · intro s hn hg
      have hs : s = [] := List.length_eq_zero.mp (Nat.le_zero.mp hn)
      subst hs
      exact .nil
  | succ n ih =>
    have h1 : ∀ s : List Char, s.length ≤ n + 1 → SpecCompleteType s →
        GenCompleteType s := by
      intro s hn hg
      cases hg with
      | fixed c hc => exact .fixed c hc
      | stringLike c hc => exact .stringLike c hc
      | variant => exact .variant
      | array s' hs' =>
        have hl : s'.length ≤ n := by
          simp only [List.length_cons] at hn
          omega
        exact .array s' (ih.1 s' hl hs')
      | dict k v hk hv =>
        have hlk : k.length ≤ n := by
          simp only [List.length_cons, List.length_append] at hn
          omega
        have hlv : v.length ≤ n := by
          simp only [List.length_cons, List.length_append] at hn
          omega
        exact .dict k v (ih.1 k hlk hk) (ih.1 v hlv hv)
      | strct s1 ss hs1 hss =>
        have hl1 : s1.length ≤ n := by
          simp only [List.length_cons, List.length_append] at hn
          omega
        have hls : ss.length ≤ n := by
          simp only [List.length_cons, List.length_append] at hn
          omega
        have hg1 : GenCompleteTypes (s1 ++ ss) :=
          .cons s1 ss (ih.1 s1 hl1 hs1) (ih.2 ss hls hss)
        exact .strct (s1 ++ ss) hg1
    refine ⟨h1, ?_⟩
    intro s hn hg
    cases hg with
    | nil => exact .nil
    | cons s1 ss hs1 hss =>
      have hl1 : s1.length ≤ n + 1 := by
        simp only [List.length_append] at hn
        omega
      have hne : s1 ≠ [] := SpecCompleteType_ne_nil s1 hs1
      have hlen1 : 0 < s1.length := List.length_pos.mpr hne
      have hls : ss.length ≤ n := by
        simp only [List.length_append] at hn
        omega
      exact .cons s1 ss (h1 s1 hl1 hs1) (ih.2 ss hls hss)

/-- C8 counterexample: the parser accepts the empty struct signature, which
is not a complete type of the spec grammar (struct bodies need at least one
type there). -/
theorem c8_counterexample :
    parseSig ['(', ')'] = .ok (.struct []) ∧ ¬ SpecCompleteType ['(', ')'] := by
  constructor
  · exact parseSig_complete (.struct []) rfl _ rfl
  · intro h
    generalize hx : (['(', ')'] : List Char) = xs at h
    cases h with
    | fixed c hc => simp at hx
    | stringLike c hc => simp at hx
    | variant => simp at hx
    | array s hs => simp at hx
    | dict k v hk hv => simp at hx
    | strct s ss hs hss =>
      have hlen := congrArg List.length hx
      simp only [List.length_cons, List.length_append,
        List.length_singleton, List.length_nil] at hlen
      have hs0 : s = [] := List.length_eq_zero.mp (by omega)
      subst hs0
      exact SpecCompleteType_ne_nil [] hs rfl

/-- C6: the signature a{vs} has the non-basic key type v (neither fixed nor
string-like), yet the parser accepts it, returning the dict descriptor with
key v; the basic-key check is an unimplemented TODO in the source. -/
theorem c6_nonbasic_dict_key_accepted :
    parseSig ['a', '{', 'v', 's', '}']
      = .ok (.dict (.base 'v') (.base 's')) ∧
    isFixedTypeSig 'v' = false ∧ isStringTypeSig 'v' = false := by
  refine ⟨?_, rfl, rfl⟩
  exact parseSig_complete (.dict (.base 'v') (.base 's')) rfl _ rfl

/-- C8 [amended]: parseSig succeeds exactly on the complete types of the
grammar the parser realises, which extends the spec grammar by allowing an
empty struct body (first conjunct; the spec grammar is contained in it,
fourth conjunct); when a complete type is followed by trailing characters,
parseSig fails with the trailing-characters error naming exactly the
remaining input (second conjunct); parseSigs succeeds on every
concatenation of zero or more complete types, returning the parsed
descriptors in order (third conjunct). -/
theorem c8_parser_correct (cs : List Char) :
    ((∃ t, parseSig cs = .ok t) ↔ GenCompleteType cs) ∧
    (∀ (t : DBusType2) (rest : List Char) (h : rest.length < cs.length),
      parseNextSig cs = .ok (t, ⟨rest, h⟩) → rest ≠ [] →
      parseSig cs = .error (.unexpectedTrailing rest)) ∧
    (GenCompleteTypes cs → ∃ ts, parseSigs cs = .ok ts ∧ renderSigs ts = cs) ∧
    (SpecCompleteType cs → GenCompleteType cs) := by
  refine ⟨⟨?_, ?_⟩, ?_, ?_, ?_⟩
  · rintro ⟨t, ht⟩
    unfold parseSig at ht
    split at ht
    · cases ht
    · next t' rest hpf heq =>
      split at ht
      · next hrest =>
        subst hrest
        injection ht with ht2
        subst ht2
        obtain ⟨hval, hrender⟩ :=
          (parser_sound_main cs.length).1 cs t' _ le_rfl heq
        have hr2 : cs = renderSig t' ++ [] := hrender
        rw [List.append_nil] at hr2
        rw [hr2]
        exact validT_gen t' hval
      · cases ht
  · intro hg
    obtain ⟨t, hv, hr⟩ := (gen_render_main cs.length).1 cs le_rfl hg
    exact ⟨t, parseSig_complete t hv cs hr.symm⟩
  · intro t rest h heq hne
    unfold parseSig
    rw [heq]
    simp [hne]
  · intro hg
    obtain ⟨ts, hv, hr⟩ := (gen_render_main cs.length).2 cs le_rfl hg
    exact ⟨ts, parseSigs_complete ts hv cs hr.symm, hr⟩
  · intro hs
    exact (spec_gen_main cs.length).1 cs le_rfl hs

/-- C8 witness: on the signature ayy the one-type parser fails with
unexpected trailing characters y (matching the source test), while the
many-types parser returns the two descriptors in order; ay alone is one
complete type and parses. -/
theorem c8_parser_correct_witness :
    (∃ t, parseSig ['a', 'y'] = .ok t) ∧
    parseSig ['a', 'y', 'y'] = .error (.unexpectedTrailing ['y']) ∧
    (∃ ts, parseSigs ['a', 'y', 'y'] = .ok ts ∧
      renderSigs ts = ['a', 'y', 'y']) := by
  obtain ⟨hpf, heq⟩ := parseNextSig_complete (.array (.base 'y')) rfl
    ['y'] ['a', 'y', 'y'] rfl
  refine ⟨?_, ?_, ?_⟩
  · exact (c8_parser_correct ['a', 'y']).1.mpr
      (.array ['y'] (.fixed 'y' rfl))
  · exact (c8_parser_correct ['a', 'y', 'y']).2.1 (.array (.base 'y'))
      ['y'] hpf heq (by simp)
  · exact (c8_parser_correct ['a', 'y', 'y']).2.2.1
      (.cons ['a', 'y'] ['y'] (.array ['y'] (.fixed 'y' rfl))
        (.cons ['y'] [] (.fixed 'y' rfl) .nil))

end DenoBus
